import Mathlib

/-!
Bucketize (intel_cpu plugin node): embedding and verification.

Source: `src/plugins/intel_cpu/src/nodes/bucketize.cpp`.

The node assigns to every element of an input tensor the index of the bucket it
falls into, relative to a 1-D tensor of boundaries.  The file embeds

* the element types and the packed precision mask (`getElementsMask`),
* the precision negotiation (`initSupportedPrimitiveDescriptors`),
* the shape set-up (`prepareParams`),
* the 18-way dispatch (`execute`),
* the kernel template (`bucketize`) together with the two standard-library
  searches it calls (`std::lower_bound`, `std::upper_bound`),

and then states and proves properties of these definitions.
-/

namespace Bucketize

/-! ## Element types and values -/

/-- Modelled from the spec: the enumeration `ov::element::Type_t` lives in
`openvino/core/type/element_type.hpp`, which is not among the sources.  Only the
names of the enumerators are fixed here; their numeric identifiers are a
parameter (`id : Type_t → Nat`) of everything that depends on them. -/
inductive Type_t
  | dynamic | boolean | bf16 | f16 | f32 | f64 | i4 | i8 | i16 | i32 | i64
  | u1 | u2 | u3 | u4 | u6 | u8 | u16 | u32 | u64
  | nf4 | f8e4m3 | f8e5m2 | string | f4e2m1 | f8e8m0
  deriving DecidableEq

/-- A numbering of the enumerators (their position in the list above), used
where a concrete numbering is needed. -/
def Type_t.position (t : Type_t) : Nat := t.toCtorIdx

/-- Modelled from the spec: the C++ value types that
`element_type_traits<ET>::value_type` (header `element_type_traits.hpp`, not
among the sources) yields for the element types `f32`, `i32` and `i64` ("32-bit
float, 32-bit integer, 64-bit integer"): the only types the kernel template is
instantiated with. -/
inductive CType
  | float | int32_t | int64_t
  deriving DecidableEq

/-- Modelled from the spec: `element_type_traits<ET>::value_type` for the three
element types the dispatch names. -/
def value_type : Type_t → Option CType
  | .f32 => some .float
  | .i32 => some .int32_t
  | .i64 => some .int64_t
  | _ => none

/-- A value of C++ type `float` (IEEE-754 binary32), as far as comparison sees
it: a NaN, an infinity, or a finite number.  Every finite binary32 number is an
integer multiple of `2^-149`; `fin m` stands for `m * 2^-149` (`+0` and `-0`,
which compare equal, are both `fin 0`). -/
inductive F32
  | nan
  | negInf
  | fin (m : Int)
  | posInf
  deriving DecidableEq

/-- The built-in `<` on `float`: false as soon as one operand is a NaN. -/
def F32.lt : F32 → F32 → Bool
  | .nan, _ => false
  | _, .nan => false
  | .negInf, .negInf => false
  | .negInf, _ => true
  | .fin _, .negInf => false
  | .fin a, .fin b => decide (a < b)
  | .fin _, .posInf => true
  | .posInf, _ => false

/-- The built-in `<=` on `float`: false as soon as one operand is a NaN. -/
def F32.le : F32 → F32 → Bool
  | .nan, _ => false
  | _, .nan => false
  | .negInf, _ => true
  | .fin _, .negInf => false
  | .fin a, .fin b => decide (a ≤ b)
  | .fin _, .posInf => true
  | .posInf, .posInf => true
  | .posInf, _ => false

/-- The number of low-order bits that do not fit into the 24-bit significand of
a `float`: the least `s` with `a < 2 ^ (24 + s)`.  The first argument bounds the
number of halvings (`a` itself is always enough). -/
def excessBits : Nat → Nat → Nat
  | 0, _ => 0
  | fuel + 1, a => if a < 2 ^ 24 then 0 else excessBits fuel (a / 2) + 1

/-- Rounding of a natural number to 24 significant bits, to nearest, ties to
even: what the conversion of an integer to `float` does to its magnitude. -/
def round24 (a : Nat) : Nat :=
  let s := excessBits a a
  let q := a / 2 ^ s
  let r := a % 2 ^ s
  if 2 ^ s < 2 * r ∨ (2 * r = 2 ^ s ∧ q % 2 = 1) then (q + 1) * 2 ^ s else q * 2 ^ s

/-- Conversion of an integer to `float` (the default rounding: to nearest, ties
to even), as an integer: 32- and 64-bit integers are far below the overflow
threshold of `float`, so the result is always finite. -/
def roundToFloat (n : Int) : Int :=
  if n < 0 then -(round24 n.natAbs : Int) else (round24 n.natAbs : Int)

/-- The `float` an integer converts to (`fin m` counts in units of `2^-149`). -/
def F32.ofInt (n : Int) : F32 := .fin (roundToFloat n * ((2 ^ 149 : Nat) : Int))

/-- One element of a tensor, seen through a pointer of one of the three value
types.  Integers are mathematical integers: the kernel only compares them. -/
inductive Scalar
  | f32 (x : F32)
  | i32 (n : Int)
  | i64 (n : Int)
  deriving DecidableEq

/-- The C++ type of a value. -/
def Scalar.ctype : Scalar → CType
  | .f32 _ => .float
  | .i32 _ => .int32_t
  | .i64 _ => .int64_t

/-- The integer held by a value of integer type. -/
def Scalar.int? : Scalar → Option Int
  | .f32 _ => none
  | .i32 n => some n
  | .i64 n => some n

/-- Conversion to `float` (identity on a `float`). -/
def Scalar.toFloat : Scalar → F32
  | .f32 x => x
  | .i32 n => F32.ofInt n
  | .i64 n => F32.ofInt n

/-- The built-in `a < b` after the usual arithmetic conversions: two integers
are compared as integers (`int32_t` widens to `int64_t` exactly); as soon as one
operand is a `float` the other one is converted to `float` first. -/
def Scalar.less (a b : Scalar) : Bool :=
  match a.int?, b.int? with
  | some x, some y => decide (x < y)
  | _, _ => F32.lt a.toFloat b.toFloat

/-- The built-in `a <= b` after the usual arithmetic conversions. -/
def Scalar.lessEq (a b : Scalar) : Bool :=
  match a.int?, b.int? with
  | some x, some y => decide (x ≤ y)
  | _, _ => F32.le a.toFloat b.toFloat

/-- A value that is a NaN. -/
def Scalar.isNaN : Scalar → Bool
  | .f32 .nan => true
  | _ => false

/-! ## The standard-library searches -/

/-- The loop of `std::lower_bound` (libstdc++ `std::__lower_bound`, the same
halving scheme as libc++): `len` elements starting at position `first` remain.
The result is `none` when a position outside `data` is read, or when the fuel
runs out before the loop ends. -/
def lower_bound_loop {α β : Type} (comp : β → α → Bool) (data : List β) (value : α) :
    Nat → Nat → Nat → Option Nat
  | 0, first, len => if len = 0 then some first else none
  | fuel + 1, first, len =>
    if len = 0 then some first
    else
      let half := len / 2
      let middle := first + half
      match data[middle]? with
      | none => none
      | some x =>
        if comp x value then lower_bound_loop comp data value fuel (middle + 1) (len - half - 1)
        else lower_bound_loop comp data value fuel first half

/-- The call `std::lower_bound(data + first, data + last, value)` with the
element-versus-value comparison `comp x value` (the built-in `x < value`); the
result is the position relative to `data`. -/
def lower_bound {α β : Type} (comp : β → α → Bool) (data : List β) (first last : Nat)
    (value : α) : Option Nat :=
  lower_bound_loop comp data value (last - first) first (last - first)

/-- The loop of `std::upper_bound` (libstdc++ `std::__upper_bound`); `comp value x`
is the built-in `value < x`. -/
def upper_bound_loop {α β : Type} (comp : α → β → Bool) (data : List β) (value : α) :
    Nat → Nat → Nat → Option Nat
  | 0, first, len => if len = 0 then some first else none
  | fuel + 1, first, len =>
    if len = 0 then some first
    else
      let half := len / 2
      let middle := first + half
      match data[middle]? with
      | none => none
      | some x =>
        if comp value x then upper_bound_loop comp data value fuel first half
        else upper_bound_loop comp data value fuel (middle + 1) (len - half - 1)

/-- The call `std::upper_bound(data + first, data + last, value)`. -/
def upper_bound {α β : Type} (comp : α → β → Bool) (data : List β) (first last : Nat)
    (value : α) : Option Nat :=
  upper_bound_loop comp data value (last - first) first (last - first)

/-! ## The node -/

/-- Modelled from the spec: a memory block attached to a port of the node (the
memory classes are not among the sources): what `isDefined()`,
`getStaticDims()` and the data pointer give. -/
structure Memory where
  isDefined : Bool
  staticDims : List Nat
  data : List Scalar

/-- Modelled from the spec: what the accessors of the base class `Node` (not
among the sources) return at the time of a call: the memory at the two input
ports and at the output port (`none` is a null pointer) and whether a primitive
descriptor has been selected. -/
structure Ports where
  src0 : Option Memory
  src1 : Option Memory
  dst : Option Memory
  selectedPrimitiveDescriptor : Bool

/-- Modelled from the spec: the data members of the `Bucketize` node that the
source reads and writes (declared in `bucketize.h`, not among the sources), and
the list of primitive descriptors of the base class. -/
structure Node where
  with_right : Bool
  with_bins : Bool
  num_values : Nat
  num_bin_values : Nat
  input_precision : Type_t
  boundaries_precision : Type_t
  output_precision : Type_t
  supportedPrimitiveDescriptors : List (Type_t × Type_t × Type_t)
  deriving DecidableEq

/-- The exceptions the source raises through `CPU_NODE_ASSERT` and
`CPU_NODE_THROW`, by the assertion that fails. -/
inductive Error
  | destination_memory_undefined
  | input_tensor_undefined
  | input_bins_undefined
  | primitive_descriptors_unset
  | incorrect_input_dimensions
  | incorrect_boundaries_dimensions
  | unsupported_precision (precision_mask : Nat)
  deriving DecidableEq

/-- Modelled from the spec: the helper `none_of` of `utils/general_utils.h`, which
is not among the sources; it holds when the value equals none of the listed
items ("if the requested type is one of ..., keep it; otherwise substitute"). -/
def none_of (value : Type_t) (items : List Type_t) : Bool :=
  !(items.contains value)

/-- `Bucketize::initSupportedPrimitiveDescriptors`; the three arguments are what
`getOriginalInputPrecisionAtPort(INPUT_TENSOR_PORT)`,
`getOriginalInputPrecisionAtPort(INPUT_BINS_PORT)` and
`getOriginalOutputPrecisionAtPort(OUTPUT_TENSOR_PORT)` return. -/
def initSupportedPrimitiveDescriptors (n : Node)
    (originalInput originalBins originalOutput : Type_t) : Node :=
  if !n.supportedPrimitiveDescriptors.isEmpty then n
  else
    let input_precision :=
      if none_of originalInput [.f32, .i32, .i64] then Type_t.f32 else originalInput
    let boundaries_precision :=
      if none_of originalBins [.f32, .i32, .i64] then Type_t.f32 else originalBins
    let output_precision :=
      if none_of originalOutput [.i32, .i64] then Type_t.i32 else originalOutput
    { n with
      input_precision := input_precision
      boundaries_precision := boundaries_precision
      output_precision := output_precision
      supportedPrimitiveDescriptors :=
        n.supportedPrimitiveDescriptors ++
          [(input_precision, boundaries_precision, output_precision)] }

/-- `getElementsMask`: the four identifiers packed into one `uint32_t`, one byte
each.  `id` is the numeric value of an enumerator; the casts and the shifts are
taken modulo `2^32`. -/
def getElementsMask (id : Type_t → Nat) (precision1 precision2 precision3 precision4 : Type_t) :
    Nat :=
  (id precision1 % 2 ^ 32) |||
    (((id precision2 % 2 ^ 32) <<< 8) % 2 ^ 32) |||
    (((id precision3 % 2 ^ 32) <<< 16) % 2 ^ 32) |||
    (((id precision4 % 2 ^ 32) <<< 24) % 2 ^ 32)

/-- The test `memPtr && memPtr->isDefined()`. -/
def definedMemory : Option Memory → Bool
  | some m => m.isDefined
  | none => false

/-- `memPtr->getStaticDims()`. -/
def getStaticDims : Option Memory → List Nat
  | some m => m.staticDims
  | none => []

/-- `Bucketize::prepareParams`.  `size_t` arithmetic is modulo `2^64`. -/
def prepareParams (n : Node) (p : Ports) : Except Error Node :=
  if !definedMemory p.dst then .error .destination_memory_undefined
  else if !definedMemory p.src0 then .error .input_tensor_undefined
  else if !definedMemory p.src1 then .error .input_bins_undefined
  else if !p.selectedPrimitiveDescriptor then .error .primitive_descriptors_unset
  else
    let input_tensor_dims := getStaticDims p.src0
    if input_tensor_dims.isEmpty then .error .incorrect_input_dimensions
    else
      let input_bin_dims := getStaticDims p.src1
      if input_bin_dims.length ≠ 1 then .error .incorrect_boundaries_dimensions
      else
        let n1 := if input_bin_dims.headD 0 ≠ 0 then { n with with_bins := true } else n
        .ok { n1 with
          num_bin_values := input_bin_dims.headD 0
          num_values := input_tensor_dims.foldl (fun acc d => acc * d % 2 ^ 64) 1 }

/-- Modelled from the spec: `getSrcDataAtPortAs<T>(port)` and
`getDstDataAtPortAs<T>(port)` of the base class `Node` (not among the sources):
the block seen as an array of `T`.  The view exists when there is a block and
it holds values of type `T`. -/
def getDataAs (T : CType) : Option Memory → Option (List Scalar)
  | some m => if m.data.all (fun x => decide (x.ctype = T)) then some m.data else none
  | none => none

/-- Reduction of an integer to the two's-complement range of the given width. -/
def wrapSigned (bits : Nat) (x : Int) : Int :=
  (x + ((2 ^ (bits - 1) : Nat) : Int)) % ((2 ^ bits : Nat) : Int) - ((2 ^ (bits - 1) : Nat) : Int)

/-- `static_cast<T_IND>(d)` of a pointer difference `d`. -/
def static_cast (T_IND : CType) (d : Int) : Scalar :=
  match T_IND with
  | .int32_t => .i32 (wrapSigned 32 d)
  | .int64_t => .i64 (wrapSigned 64 d)
  | .float => .f32 (F32.ofInt d)

/-- The value of type `T_IND` whose bytes are all zero. -/
def zeroValue (T_IND : CType) : Scalar :=
  match T_IND with
  | .int32_t => .i32 0
  | .int64_t => .i64 0
  | .float => .f32 (.fin 0)

/-- `memset(output_data, 0, count * sizeof(T_IND))`: the first `count` elements
become zero; `none` when the block is shorter.  (A block of `count` elements
occupies `count * sizeof(T_IND)` addressable bytes, so the product does not wrap.) -/
def memset_zero (T_IND : CType) (output_data : List Scalar) (count : Nat) :
    Option (List Scalar) :=
  if count ≤ output_data.length then
    some (List.replicate count (zeroValue T_IND) ++ output_data.drop count)
  else none

/-- The assignment `output_data[ind] = x`; `none` when `ind` is outside the block. -/
def store (output_data : List Scalar) (ind : Nat) (x : Scalar) : Option (List Scalar) :=
  if ind < output_data.length then some (output_data.set ind x) else none

/-- Modelled from the spec: `parallel_for(count, body)` of
`openvino/core/parallel.hpp` (not among the sources): `body` is run once for
every index below `count` ("one per input element, no ordering dependency
between items").  The iterations write disjoint slots and read nothing another
one writes, so they are taken in increasing order. -/
def parallel_for {σ : Type} (count : Nat) (body : Nat → σ → Option σ) (s : σ) : Option σ :=
  (List.range count).foldlM (fun acc ind => body ind acc) s

/-- The search in the body of the loop of `Bucketize::bucketize`: the pointer
difference `low - boundaries_data` (`with_right`) or `up - boundaries_data`. -/
def searchIndex (with_right : Bool) (boundaries_data : List Scalar) (num_bin_values : Nat)
    (value : Scalar) : Option Nat :=
  if with_right then
    lower_bound (fun b v => Scalar.less b v) boundaries_data 0 num_bin_values value
  else
    upper_bound (fun v b => Scalar.less v b) boundaries_data 0 num_bin_values value

/-- `Bucketize::bucketize<T, T_BOUNDARIES, T_IND>`: the new contents of the
destination block, or `none` when a block is missing, does not hold the type it
is read as, or is accessed outside its bounds. -/
def bucketize (T T_BOUNDARIES T_IND : CType) (n : Node) (p : Ports) : Option (List Scalar) :=
  match getDataAs T p.src0, getDataAs T_BOUNDARIES p.src1, getDataAs T_IND p.dst with
  | some input_data, some boundaries_data, some output_data =>
    if !n.with_bins then memset_zero T_IND output_data n.num_values
    else
      parallel_for n.num_values
        (fun ind out =>
          match input_data[ind]? with
          | none => none
          | some value =>
            match searchIndex n.with_right boundaries_data n.num_bin_values value with
            | none => none
            | some i => store out ind (static_cast T_IND (i : Int)))
        output_data
  | _, _, _ => none

/-- The `switch` of `Bucketize::execute`: the template arguments of the
instantiation the case with the given label calls, `none` for `default`. -/
def execute_switch (id : Type_t → Nat) (precision_mask : Nat) : Option (CType × CType × CType) :=
  if precision_mask = getElementsMask id .f32 .f32 .i32 .dynamic then
    some (.float, .float, .int32_t)
  else if precision_mask = getElementsMask id .f32 .f32 .i64 .dynamic then
    some (.float, .float, .int64_t)
  else if precision_mask = getElementsMask id .f32 .i32 .i32 .dynamic then
    some (.float, .int32_t, .int32_t)
  else if precision_mask = getElementsMask id .f32 .i32 .i64 .dynamic then
    some (.float, .int32_t, .int64_t)
  else if precision_mask = getElementsMask id .f32 .i64 .i32 .dynamic then
    some (.float, .int64_t, .int32_t)
  else if precision_mask = getElementsMask id .f32 .i64 .i64 .dynamic then
    some (.float, .int64_t, .int64_t)
  else if precision_mask = getElementsMask id .i32 .f32 .i32 .dynamic then
    some (.int32_t, .float, .int32_t)
  else if precision_mask = getElementsMask id .i32 .f32 .i64 .dynamic then
    some (.int32_t, .float, .int64_t)
  else if precision_mask = getElementsMask id .i32 .i32 .i32 .dynamic then
    some (.int32_t, .int32_t, .int32_t)
  else if precision_mask = getElementsMask id .i32 .i32 .i64 .dynamic then
    some (.int32_t, .int32_t, .int64_t)
  else if precision_mask = getElementsMask id .i32 .i64 .i32 .dynamic then
    some (.int32_t, .int64_t, .int32_t)
  else if precision_mask = getElementsMask id .i32 .i64 .i64 .dynamic then
    some (.int32_t, .int64_t, .int64_t)
  else if precision_mask = getElementsMask id .i64 .f32 .i32 .dynamic then
    some (.int64_t, .float, .int32_t)
  else if precision_mask = getElementsMask id .i64 .f32 .i64 .dynamic then
    some (.int64_t, .float, .int64_t)
  else if precision_mask = getElementsMask id .i64 .i32 .i32 .dynamic then
    some (.int64_t, .int32_t, .int32_t)
  else if precision_mask = getElementsMask id .i64 .i32 .i64 .dynamic then
    some (.int64_t, .int32_t, .int64_t)
  else if precision_mask = getElementsMask id .i64 .i64 .i32 .dynamic then
    some (.int64_t, .int64_t, .int32_t)
  else if precision_mask = getElementsMask id .i64 .i64 .i64 .dynamic then
    some (.int64_t, .int64_t, .int64_t)
  else none

/-- How a call of `execute` ends; `dst` is the contents of the destination
block afterwards (`none`: there is no block). -/
inductive Outcome
  | returned (dst : List Scalar)
  | threw (e : Error) (dst : Option (List Scalar))
  | undefined
  deriving DecidableEq

/-- `Bucketize::execute`. -/
def execute (id : Type_t → Nat) (n : Node) (p : Ports) : Outcome :=
  let precision_mask :=
    getElementsMask id n.input_precision n.boundaries_precision n.output_precision .dynamic
  match execute_switch id precision_mask with
  | some (T, T_BOUNDARIES, T_IND) =>
    match bucketize T T_BOUNDARIES T_IND n p with
    | some out => .returned out
    | none => .undefined
  | none => .threw (.unsupported_precision precision_mask) (p.dst.map (fun m => m.data))

/-! ## Vocabulary of the statements -/

/-- The 18 supported combinations `{f32, i32, i64} x {f32, i32, i64} x {i32, i64}`. -/
def supportedCombination (a b c : Type_t) : Bool :=
  [Type_t.f32, .i32, .i64].contains a && [Type_t.f32, .i32, .i64].contains b &&
    [Type_t.i32, .i64].contains c

/-- The check that every element is `<` its successor. -/
def isStrictlyAscending : List Scalar → Bool
  | a :: b :: t => Scalar.less a b && isStrictlyAscending (b :: t)
  | _ => true

/-- Sorted ascending without duplicates: every element is `<` its successor. -/
def strictlyAscending (B : List Scalar) : Prop :=
  isStrictlyAscending B = true

/-- The position of the first element satisfying `p`, the length when there is
none. -/
def firstPosition (p : Scalar → Bool) (B : List Scalar) : Nat :=
  (B.takeWhile (fun b => !p b)).length

instance (B : List Scalar) : Decidable (strictlyAscending B) :=
  inferInstanceAs (Decidable (isStrictlyAscending B = true))

/-! ## Concrete scenarios -/

/-- The `float` values of a list of integers. -/
def floats (xs : List Int) : List Scalar := xs.map (fun k => Scalar.f32 (F32.ofInt k))

/-- A defined block of the given contents, with a one-dimensional shape. -/
def block (data : List Scalar) : Memory := ⟨true, [data.length], data⟩

/-- The boundaries `[1.0, 5.0, 10.0]`. -/
def scenarioBoundaries : List Scalar := floats [1, 5, 10]

/-- The input `[0.0, 1.0, 5.0, 7.0, 10.0, 12.0]`. -/
def scenarioInput : List Scalar := floats [0, 1, 5, 7, 10, 12]

/-- A destination block of `count` elements of type `int32_t` with arbitrary
earlier contents. -/
def staleOutput (count : Nat) : List Scalar := List.replicate count (Scalar.i32 77)

/-- A node after set-up for `f32` input, `f32` boundaries and `i32` output. -/
def scenarioNode (with_right : Bool) (num_values num_bin_values : Nat) : Node :=
  ⟨with_right, true, num_values, num_bin_values, .f32, .f32, .i32, [(.f32, .f32, .i32)]⟩

/-- A node on which neither `initSupportedPrimitiveDescriptors` nor
`prepareParams` has run yet. -/
def freshNode : Node := ⟨true, false, 0, 0, .dynamic, .dynamic, .dynamic, []⟩

/-- The node `freshNode` after negotiation of the requested types `f32`, `f32`,
`i32`. -/
def negotiatedNode : Node := initSupportedPrimitiveDescriptors freshNode .f32 .f32 .i32

/-- Ports with a two-element input and a boundary tensor of the given contents. -/
def portsWithBoundaries (boundaries : List Scalar) : Ports :=
  ⟨some (block (floats [3, -1])), some (block boundaries), some (block (staleOutput 2)), true⟩

/-! ## Construction -/

/-- Modelled from the spec: what the constructor reads from the operation it is
built from (`ov::Node` and `ov::op::v3::Bucketize` are not among the sources):
whether the operation is a v3 `Bucketize`, its numbers of input and output edges,
and its attribute `with_right_bound`. -/
structure Op where
  isV3Bucketize : Bool
  originalInputsNumber : Nat
  originalOutputsNumber : Nat
  with_right_bound : Bool
  deriving DecidableEq

/-- The exceptions of the constructor, by the check that fails. -/
inductive ConstructionError
  | not_implemented
  | not_an_instance
  | incorrect_number_of_edges
  deriving DecidableEq

/-- `Bucketize::isSupportedOperation`: the cast to a v3 `Bucketize` succeeds. -/
def isSupportedOperation (op : Op) : Bool :=
  if !op.isV3Bucketize then false else true

/-- The constructor `Bucketize::Bucketize`.  `members` holds the data members as
their declarations in `bucketize.h` (not among the sources) initialise them; the
constructor body assigns `with_right` only. -/
def Bucketize (op : Op) (members : Node) : Except ConstructionError Node :=
  if !isSupportedOperation op then .error .not_implemented
  else if !op.isV3Bucketize then .error .not_an_instance
  else if !(op.originalInputsNumber == 2 && op.originalOutputsNumber == 1) then
    .error .incorrect_number_of_edges
  else .ok { members with with_right := op.with_right_bound }

/-! ## Comparison by numeric value -/

/-- The number an integer stands for, in the units of `F32.fin`, without any
rounding. -/
def F32.exact (n : Int) : F32 := .fin (n * ((2 ^ 149 : Nat) : Int))

/-- The value of a scalar as a number (or NaN, or an infinity), without rounding
an integer to `float`. -/
def Scalar.numericValue : Scalar → F32
  | .f32 x => x
  | .i32 n => F32.exact n
  | .i64 n => F32.exact n

/-- Strictly less by numeric value, as the specification words the comparison
of mixed element types: "neither v nor a boundary is truncated or rounded to
the other's type before the comparison". -/
def Scalar.numericLess (a b : Scalar) : Bool :=
  F32.lt a.numericValue b.numericValue

/-- Less than or equal by numeric value, in the specification's words. -/
def Scalar.numericLessEq (a b : Scalar) : Bool :=
  F32.le a.numericValue b.numericValue

/-- An integer of magnitude at most `2^24` (every such integer is a `float`), or
a `float`. -/
def Scalar.exactInFloat : Scalar → Bool
  | .f32 _ => true
  | .i32 n => decide (n.natAbs ≤ 2 ^ 24)
  | .i64 n => decide (n.natAbs ≤ 2 ^ 24)

/-! ## Boundaries with duplicates -/

/-- The check that every element is `<=` its successor. -/
def isNonDecreasing : List Scalar → Bool
  | a :: b :: t => Scalar.lessEq a b && isNonDecreasing (b :: t)
  | _ => true

/-- Sorted in non-decreasing order, duplicates allowed. -/
def nonDecreasing (B : List Scalar) : Prop :=
  isNonDecreasing B = true

instance (B : List Scalar) : Decidable (nonDecreasing B) :=
  inferInstanceAs (Decidable (isNonDecreasing B = true))

/-- The index the search of the kernel yields for a value (`0` if it yielded
none). -/
def bucketIndex (with_right : Bool) (boundaries_data : List Scalar) (value : Scalar) : Nat :=
  (searchIndex with_right boundaries_data boundaries_data.length value).getD 0

/-! ## Further scenarios -/

/-- A v3 `Bucketize` operation with the given numbers of edges. -/
def scenarioOp (inputs outputs : Nat) : Op := ⟨true, inputs, outputs, true⟩

/-- Boundaries `[1.0, 1.0, 5.0]`, with a duplicate. -/
def duplicateBoundaries : List Scalar := floats [1, 1, 5]

/-- The boundary `2.5`. -/
def boundaryTwoAndHalf : List Scalar := [.f32 (.fin (5 * ((2 ^ 148 : Nat) : Int)))]

/-- A node after set-up for `i64` input, `f32` boundaries and `i32` output. -/
def mixedNode (num_values num_bin_values : Nat) : Node :=
  ⟨true, true, num_values, num_bin_values, .i64, .f32, .i32, [(.i64, .f32, .i32)]⟩

/-- Ports whose boundary tensor has the two-dimensional shape `[2, 1]`. -/
def portsWithTwoDimensionalBoundaries : Ports :=
  ⟨some (block (floats [3, -1])), some ⟨true, [2, 1], floats [1, 5]⟩,
    some (block (staleOutput 2)), true⟩

/-! # Theorems -/

/-! ## The searches: termination, bounds, and the partition point -/

theorem upper_bound_loop_eq_lower {α β : Type} (comp : α → β → Bool) (data : List β) (value : α)
    (fuel first len : Nat) :
    upper_bound_loop comp data value fuel first len =
      lower_bound_loop (fun x v => !comp v x) data value fuel first len := by
  induction fuel generalizing first len with
  | zero => simp [upper_bound_loop, lower_bound_loop]
  | succ k ih =>
    simp only [upper_bound_loop, lower_bound_loop]
    split
    · rfl
    · cases data[first + len / 2]? with
      | none => rfl
      | some x => cases hc : comp value x <;> simp [ih, hc]

theorem lower_bound_loop_bounds {α β : Type} (comp : β → α → Bool) (data : List β) (value : α) :
    ∀ fuel first len, len ≤ fuel → first + len ≤ data.length →
      ∃ r, lower_bound_loop comp data value fuel first len = some r ∧ first ≤ r ∧ r ≤ first + len := by
  intro fuel
  induction fuel with
  | zero =>
    intro first len hl _
    have : len = 0 := by omega
    subst this
    exact ⟨first, by simp [lower_bound_loop], le_refl _, by omega⟩
  | succ k ih =>
    intro first len hl hb
    simp only [lower_bound_loop]
    by_cases h0 : len = 0
    · subst h0
      exact ⟨first, by simp, le_refl _, by omega⟩
    · have hmid : first + len / 2 < data.length := by omega
      rw [if_neg h0, List.getElem?_eq_getElem hmid]
      simp only
      split
      · obtain ⟨r, hr, h1, h2⟩ := ih (first + len / 2 + 1) (len - len / 2 - 1) (by omega) (by omega)
        exact ⟨r, hr, by omega, by omega⟩
      · obtain ⟨r, hr, h1, h2⟩ := ih first (len / 2) (by omega) (by omega)
        exact ⟨r, hr, by omega, by omega⟩

theorem lower_bound_loop_partition {α β : Type} (comp : β → α → Bool) (data : List β) (value : α)
    (hpart : ∀ i j (_ : i < j) (hj : j < data.length),
      comp (data.get ⟨j, hj⟩) value = true → comp (data.get ⟨i, by omega⟩) value = true) :
    ∀ fuel first len, len ≤ fuel → first + len ≤ data.length →
      ∃ r, lower_bound_loop comp data value fuel first len = some r ∧ first ≤ r ∧ r ≤ first + len ∧
        (∀ j (hj : j < data.length), first ≤ j → j < r → comp (data.get ⟨j, hj⟩) value = true) ∧
        (∀ j (hj : j < data.length), r ≤ j → j < first + len →
          comp (data.get ⟨j, hj⟩) value = false) := by
  intro fuel
  induction fuel with
  | zero =>
    intro first len hl _
    have : len = 0 := by omega
    subst this
    exact ⟨first, by simp [lower_bound_loop], le_refl _, by omega,
      fun j _ h1 h2 => by omega, fun j _ h1 h2 => by omega⟩
  | succ k ih =>
    intro first len hl hb
    simp only [lower_bound_loop]
    by_cases h0 : len = 0
    · subst h0
      exact ⟨first, by simp, le_refl _, by omega,
        fun j _ h1 h2 => by omega, fun j _ h1 h2 => by omega⟩
    · have hmid : first + len / 2 < data.length := by omega
      rw [if_neg h0, List.getElem?_eq_getElem hmid]
      simp only
      by_cases hc : comp data[first + len / 2] value = true
      · rw [if_pos hc]
        obtain ⟨r, hr, h1, h2, h3, h4⟩ :=
          ih (first + len / 2 + 1) (len - len / 2 - 1) (by omega) (by omega)
        refine ⟨r, hr, by omega, by omega, ?_, ?_⟩
        · intro j hj hfj hjr
          by_cases hjm : j < first + len / 2
          · exact hpart j (first + len / 2) hjm hmid hc
          · by_cases hje : j = first + len / 2
            · subst hje; exact hc
            · exact h3 j hj (by omega) hjr
        · intro j hj hrj hjl
          exact h4 j hj hrj (by omega)
      · rw [if_neg hc]
        obtain ⟨r, hr, h1, h2, h3, h4⟩ := ih first (len / 2) (by omega) (by omega)
        refine ⟨r, hr, by omega, by omega, h3, ?_⟩
        intro j hj hrj hjl
        by_cases hjm : j < first + len / 2
        · exact h4 j hj hrj hjm
        · by_cases hje : j = first + len / 2
          · subst hje; simpa using hc
          · cases hcj : comp (data.get ⟨j, hj⟩) value
            · rfl
            · exact absurd (hpart (first + len / 2) j (by omega) hj hcj) hc

theorem countP_eq_of_split {β : Type} (P : β → Bool) :
    ∀ (B : List β) (r : Nat), r ≤ B.length →
      (∀ j (hj : j < B.length), j < r → P (B.get ⟨j, hj⟩) = true) →
      (∀ j (hj : j < B.length), r ≤ j → P (B.get ⟨j, hj⟩) = false) →
      B.countP P = r := by
  intro B
  induction B with
  | nil => intro r hr _ _; simp at hr; simp [hr]
  | cons b t ih =>
    intro r hr h1 h2
    cases r with
    | zero =>
      have hb : P b = false := h2 0 (by simp) (le_refl _)
      have := ih 0 (Nat.zero_le _) (fun j _ h => absurd h (by omega))
        (fun j hj _ => h2 (j + 1) (by simpa using hj) (by omega))
      simp [List.countP_cons, hb, this]
    | succ r' =>
      have hb : P b = true := h1 0 (by simp) (by omega)
      have := ih r' (by simpa using hr)
        (fun j hj h => h1 (j + 1) (by simpa using hj) (by omega))
        (fun j hj h => h2 (j + 1) (by simpa using hj) (by omega))
      simp [List.countP_cons, hb, this]

theorem takeWhile_length_eq_countP {β : Type} (P : β → Bool) :
    ∀ (B : List β), List.Pairwise (fun a b => P b = true → P a = true) B →
      (B.takeWhile P).length = B.countP P := by
  intro B
  induction B with
  | nil => intro _; rfl
  | cons b t ih =>
    intro h
    rw [List.pairwise_cons] at h
    cases hb : P b
    · have h0 : t.countP P = 0 := by
        rw [List.countP_eq_zero]
        intro a ha hPa
        have := h.1 a ha hPa
        simp [hb] at this
      simp [List.takeWhile_cons, List.countP_cons, hb, h0]
    · simp [List.takeWhile_cons, List.countP_cons, hb, ih h.2]

theorem lower_bound_eq_countP {α β : Type} (comp : β → α → Bool) (B : List β) (value : α)
    (h : List.Pairwise (fun a b => comp b value = true → comp a value = true) B) :
    lower_bound comp B 0 B.length value = some (B.countP (fun b => comp b value)) := by
  have hpart : ∀ i j (_ : i < j) (hj : j < B.length),
      comp (B.get ⟨j, hj⟩) value = true → comp (B.get ⟨i, by omega⟩) value = true := by
    intro i j hij hj
    exact (List.pairwise_iff_get.mp h) ⟨i, by omega⟩ ⟨j, hj⟩ hij
  obtain ⟨r, hr, _, h2, h3, h4⟩ :=
    lower_bound_loop_partition comp B value hpart B.length 0 B.length (le_refl _) (by omega)
  have hc := countP_eq_of_split (fun b => comp b value) B r (by omega)
    (fun j hj hjr => h3 j hj (Nat.zero_le _) hjr)
    (fun j hj hrj => h4 j hj hrj (by omega))
  simp only [lower_bound, Nat.sub_zero]
  rw [hr, hc]

theorem upper_bound_eq_countP {α β : Type} (comp : α → β → Bool) (B : List β) (value : α)
    (h : List.Pairwise (fun a b => comp value a = true → comp value b = true) B) :
    upper_bound comp B 0 B.length value = some (B.countP (fun b => !comp value b)) := by
  have h' : List.Pairwise
      (fun a b => (fun x v => !comp v x) b value = true → (fun x v => !comp v x) a value = true) B := by
    refine h.imp ?_
    intro a b hab hb
    cases ha : comp value a
    · simp [ha]
    · simp [hab ha] at hb
  have := lower_bound_eq_countP (fun x v => !comp v x) B value h'
  simpa [upper_bound, lower_bound, upper_bound_loop_eq_lower] using this

theorem lower_bound_in_range {α β : Type} (comp : β → α → Bool) (B : List β) (value : α) :
    ∃ r, lower_bound comp B 0 B.length value = some r ∧ r ≤ B.length := by
  obtain ⟨r, hr, _, h2⟩ :=
    lower_bound_loop_bounds comp B value B.length 0 B.length (le_refl _) (by omega)
  exact ⟨r, by simpa [lower_bound] using hr, by omega⟩

theorem upper_bound_in_range {α β : Type} (comp : α → β → Bool) (B : List β) (value : α) :
    ∃ r, upper_bound comp B 0 B.length value = some r ∧ r ≤ B.length := by
  obtain ⟨r, hr, h2⟩ := lower_bound_in_range (fun x v => !comp v x) B value
  exact ⟨r, by simpa [upper_bound, lower_bound, upper_bound_loop_eq_lower] using hr, h2⟩

/-! ## Conversion of integers to `float` is monotone -/

theorem excessBits_spec (fuel a : Nat) (h : a < 2 ^ 24 * 2 ^ fuel) :
    a < 2 ^ (24 + excessBits fuel a) ∧
      (0 < excessBits fuel a → 2 ^ (23 + excessBits fuel a) ≤ a) := by
  induction fuel generalizing a with
  | zero =>
    simp only [excessBits]
    exact ⟨by simpa using h, fun h0 => absurd h0 (by omega)⟩
  | succ k ih =>
    simp only [excessBits]
    split
    · rename_i hlt
      exact ⟨by simpa using hlt, fun h0 => absurd h0 (by omega)⟩
    · rename_i hge
      have h2 : a / 2 < 2 ^ 24 * 2 ^ k := by
        rw [pow_succ] at h
        omega
      obtain ⟨i1, i2⟩ := ih (a / 2) h2
      have e1 : 2 ^ (24 + (excessBits k (a / 2) + 1)) = 2 * 2 ^ (24 + excessBits k (a / 2)) := by
        rw [← Nat.add_assoc, pow_succ, Nat.mul_comm]
      have e2 : 2 ^ (23 + (excessBits k (a / 2) + 1)) = 2 * 2 ^ (23 + excessBits k (a / 2)) := by
        rw [← Nat.add_assoc, pow_succ, Nat.mul_comm]
      refine ⟨by omega, fun _ => ?_⟩
      by_cases hs : 0 < excessBits k (a / 2)
      · have := i2 hs
        omega
      · have hz : excessBits k (a / 2) = 0 := by omega
        rw [hz]
        simp only [Nat.zero_add, Nat.reduceAdd]
        omega

theorem excessBits_self (a : Nat) :
    a < 2 ^ (24 + excessBits a a) ∧ (0 < excessBits a a → 2 ^ (23 + excessBits a a) ≤ a) := by
  apply excessBits_spec
  have h1 : a < 2 ^ a := Nat.lt_two_pow a
  have h2 : 2 ^ a ≤ 2 ^ 24 * 2 ^ a := Nat.le_mul_of_pos_left _ (by positivity)
  omega

theorem round24_bounds (a : Nat) :
    a / 2 ^ excessBits a a * 2 ^ excessBits a a ≤ round24 a ∧
      round24 a ≤ (a / 2 ^ excessBits a a + 1) * 2 ^ excessBits a a := by
  simp only [round24]
  split
  · exact ⟨Nat.mul_le_mul_right _ (Nat.le_succ _), le_refl _⟩
  · exact ⟨le_refl _, Nat.mul_le_mul_right _ (Nat.le_succ _)⟩

theorem round24_mono {a b : Nat} (hab : a ≤ b) : round24 a ≤ round24 b := by
  obtain ⟨ha1, ha2⟩ := excessBits_self a
  obtain ⟨hb1, hb2⟩ := excessBits_self b
  obtain ⟨la, ua⟩ := round24_bounds a
  obtain ⟨lb, ub⟩ := round24_bounds b
  have hPa : 0 < 2 ^ excessBits a a := by positivity
  have hPb : 0 < 2 ^ excessBits b b := by positivity
  rcases Nat.lt_trichotomy (excessBits a a) (excessBits b b) with hlt | heq | hgt
  · -- fewer bits are dropped from `a`: a power of two lies between the results
    have hqa : a / 2 ^ excessBits a a + 1 ≤ 2 ^ 24 := by
      have : a / 2 ^ excessBits a a < 2 ^ 24 := by
        rw [Nat.div_lt_iff_lt_mul hPa, ← pow_add]
        exact ha1
      omega
    have h1 : round24 a ≤ 2 ^ (24 + excessBits a a) := by
      rw [pow_add]
      exact le_trans ua (Nat.mul_le_mul_right _ hqa)
    have h2 : 2 ^ (24 + excessBits a a) ≤ 2 ^ (23 + excessBits b b) :=
      Nat.pow_le_pow_right (by omega) (by omega)
    have hqb : 2 ^ 23 ≤ b / 2 ^ excessBits b b := by
      rw [Nat.le_div_iff_mul_le hPb, ← pow_add]
      exact hb2 (by omega)
    have h3 : 2 ^ (23 + excessBits b b) ≤ round24 b := by
      rw [pow_add]
      exact le_trans (Nat.mul_le_mul_right _ hqb) lb
    omega
  · rw [heq] at la ua ha1 ha2
    generalize hP : 2 ^ excessBits b b = P at *
    have hqab : a / P ≤ b / P := Nat.div_le_div_right hab
    rcases Nat.lt_or_ge (a / P) (b / P) with hq | hq
    · have : (a / P + 1) * P ≤ b / P * P := Nat.mul_le_mul_right _ hq
      omega
    · have hqe : a / P = b / P := by omega
      have hda := Nat.div_add_mod a P
      have hdb := Nat.div_add_mod b P
      have hr : a % P ≤ b % P := by
        rw [hqe] at hda
        omega
      simp only [round24, heq, hP, hqe]
      split
      · rename_i hca
        have hcb : P < 2 * (b % P) ∨ 2 * (b % P) = P ∧ b / P % 2 = 1 := by
          rcases hca with h | ⟨h1, h2⟩
          · left; omega
          · rcases Nat.lt_or_ge P (2 * (b % P)) with h3 | h3
            · left; exact h3
            · right; exact ⟨by omega, h2⟩
        rw [if_pos hcb]
      · split
        · exact Nat.mul_le_mul_right _ (Nat.le_succ _)
        · exact le_refl _
  · exfalso
    have h1 := ha2 (by omega)
    have h2 : 2 ^ (24 + excessBits b b) ≤ 2 ^ (23 + excessBits a a) :=
      Nat.pow_le_pow_right (by omega) (by omega)
    omega

theorem roundToFloat_mono {n m : Int} (h : n ≤ m) : roundToFloat n ≤ roundToFloat m := by
  simp only [roundToFloat]
  by_cases hn : n < 0
  · by_cases hm : m < 0
    · rw [if_pos hn, if_pos hm]
      have : round24 m.natAbs ≤ round24 n.natAbs := round24_mono (by omega)
      omega
    · rw [if_pos hn, if_neg hm]
      omega
  · have hm : ¬ m < 0 := by omega
    rw [if_neg hn, if_neg hm]
    have : round24 n.natAbs ≤ round24 m.natAbs := round24_mono (by omega)
    omega

theorem lt_of_roundToFloat_lt {n m : Int} (h : roundToFloat n < roundToFloat m) : n < m := by
  by_contra hc
  have := roundToFloat_mono (not_lt.mp hc)
  omega

/-! ## The order of the built-in comparisons -/

theorem F32.lt_trans {x y z : F32} (h1 : F32.lt x y = true) (h2 : F32.lt y z = true) :
    F32.lt x z = true := by
  cases x <;> cases y <;> cases z <;> simp [F32.lt] at *
  all_goals omega

theorem F32.lt_of_lt_of_le {x y z : F32} (h1 : F32.lt x y = true) (h2 : F32.le y z = true) :
    F32.lt x z = true := by
  cases x <;> cases y <;> cases z <;> simp [F32.lt, F32.le] at *
  all_goals omega

theorem F32.lt_of_le_of_lt {x y z : F32} (h1 : F32.le x y = true) (h2 : F32.lt y z = true) :
    F32.lt x z = true := by
  cases x <;> cases y <;> cases z <;> simp [F32.lt, F32.le] at *
  all_goals omega

theorem F32.not_le_eq_lt {x y : F32} (hx : x ≠ .nan) (hy : y ≠ .nan) :
    (!F32.le x y) = F32.lt y x := by
  cases x <;> cases y <;> simp [F32.lt, F32.le] at *
  rename_i a b
  by_cases h : a ≤ b
  · simp [h]
  · simp [h]
    omega

theorem F32.ofInt_ne_nan (n : Int) : F32.ofInt n ≠ .nan := by
  simp [F32.ofInt]

theorem F32.ofInt_le_ofInt {a b : Int} (hab : a ≤ b) : F32.le (F32.ofInt a) (F32.ofInt b) = true := by
  have h := roundToFloat_mono hab
  simp only [F32.ofInt, F32.le, decide_eq_true_eq]
  exact Int.mul_le_mul_of_nonneg_right h (Int.ofNat_nonneg _)

theorem F32.ofInt_lt_ofInt {a b : Int} (h : F32.lt (F32.ofInt a) (F32.ofInt b) = true) : a < b := by
  simp only [F32.ofInt, F32.lt, decide_eq_true_eq] at h
  have hK : (0 : Int) < ((2 ^ 149 : Nat) : Int) := by positivity
  exact lt_of_roundToFloat_lt (lt_of_mul_lt_mul_right h (le_of_lt hK))

theorem F32.ofInt_lt_of_le {a b : Int} {z : F32} (hab : a ≤ b)
    (h : F32.lt (F32.ofInt b) z = true) : F32.lt (F32.ofInt a) z = true :=
  F32.lt_of_le_of_lt (F32.ofInt_le_ofInt hab) h

theorem F32.lt_ofInt_of_le {a b : Int} {x : F32} (hab : a ≤ b)
    (h : F32.lt x (F32.ofInt a) = true) : F32.lt x (F32.ofInt b) = true :=
  F32.lt_of_lt_of_le h (F32.ofInt_le_ofInt hab)

theorem Scalar.less_trans {a b c : Scalar} (h1 : Scalar.less a b = true)
    (h2 : Scalar.less b c = true) : Scalar.less a c = true := by
  cases a <;> cases b <;> cases c <;>
    simp only [Scalar.less, Scalar.int?, Scalar.toFloat, decide_eq_true_eq] at * <;>
    first
      | exact F32.lt_trans h1 h2
      | exact F32.ofInt_lt_of_le (le_of_lt h1) h2
      | exact F32.lt_ofInt_of_le (le_of_lt h2) h1
      | exact F32.ofInt_lt_ofInt (F32.lt_trans h1 h2)
      | omega

theorem Scalar.less_of_less_of_lessEq {b v w : Scalar} (ht : v.ctype = w.ctype)
    (h1 : Scalar.less b v = true) (h2 : Scalar.lessEq v w = true) : Scalar.less b w = true := by
  cases b <;> cases v <;> cases w <;>
    simp only [Scalar.less, Scalar.lessEq, Scalar.int?, Scalar.toFloat, Scalar.ctype,
      decide_eq_true_eq, reduceCtorEq] at * <;>
    first
      | exact F32.lt_of_lt_of_le h1 h2
      | exact F32.lt_ofInt_of_le h2 h1
      | omega

theorem Scalar.less_of_lessEq_of_less {b v w : Scalar} (ht : v.ctype = w.ctype)
    (h1 : Scalar.lessEq v w = true) (h2 : Scalar.less w b = true) : Scalar.less v b = true := by
  cases b <;> cases v <;> cases w <;>
    simp only [Scalar.less, Scalar.lessEq, Scalar.int?, Scalar.toFloat, Scalar.ctype,
      decide_eq_true_eq, reduceCtorEq] at * <;>
    first
      | exact F32.lt_of_le_of_lt h1 h2
      | exact F32.ofInt_lt_of_le h1 h2
      | omega

theorem Scalar.toFloat_ne_nan {a : Scalar} (h : a.isNaN = false) : a.toFloat ≠ .nan := by
  cases a with
  | f32 x => cases x <;> simp [Scalar.isNaN, Scalar.toFloat] at *
  | i32 n => exact F32.ofInt_ne_nan n
  | i64 n => exact F32.ofInt_ne_nan n

theorem Scalar.not_lessEq_eq_less {a b : Scalar} (ha : a.isNaN = false) (hb : b.isNaN = false) :
    (!Scalar.lessEq a b) = Scalar.less b a := by
  have h := F32.not_le_eq_lt (Scalar.toFloat_ne_nan ha) (Scalar.toFloat_ne_nan hb)
  cases a <;> cases b <;>
    simp only [Scalar.less, Scalar.lessEq, Scalar.int?] at * <;>
    first
      | exact h
      | (simp only [Int.not_le, decide_not, Bool.not_eq_eq_eq_not, Bool.not_not]
         rw [← decide_not]; simp)

theorem chain_of_strictlyAscending :
    ∀ (B : List Scalar), strictlyAscending B → List.Chain' (fun a b => Scalar.less a b = true) B
  | [], _ => List.chain'_nil
  | [_], _ => List.chain'_singleton _
  | a :: b :: t, h => by
    simp only [strictlyAscending, isStrictlyAscending, Bool.and_eq_true] at h
    exact List.chain'_cons.mpr ⟨h.1, chain_of_strictlyAscending (b :: t) h.2⟩

theorem pairwise_less_of_strictlyAscending {B : List Scalar} (h : strictlyAscending B) :
    List.Pairwise (fun a b => Scalar.less a b = true) B := by
  haveI : IsTrans Scalar (fun a b => Scalar.less a b = true) :=
    ⟨fun _ _ _ h1 h2 => Scalar.less_trans h1 h2⟩
  exact List.chain'_iff_pairwise.mp (chain_of_strictlyAscending B h)

theorem takeWhile_congr_mem {β : Type} (p q : β → Bool) :
    ∀ (B : List β), (∀ b ∈ B, p b = q b) → B.takeWhile p = B.takeWhile q := by
  intro B
  induction B with
  | nil => intro _; rfl
  | cons b t ih =>
    intro h
    have hb := h b (List.mem_cons_self _ _)
    have ht := ih (fun x hx => h x (List.mem_cons_of_mem _ hx))
    simp [List.takeWhile_cons, hb, ht]

/-! ## The loop over the input and the two paths of the kernel -/

theorem getDataAs_some (T : CType) (m : Memory) (h : ∀ x ∈ m.data, x.ctype = T) :
    getDataAs T (some m) = some m.data := by
  have : m.data.all (fun x => decide (x.ctype = T)) = true := by
    rw [List.all_eq_true]
    intro x hx
    simpa using h x hx
  simp [getDataAs, this]

theorem parallel_for_store (input : List Scalar) (h : Scalar → Scalar)
    (body : Nat → List Scalar → Option (List Scalar))
    (hbody : ∀ ind out (hi : ind < input.length),
      body ind out = store out ind (h (input.get ⟨ind, hi⟩)))
    (out0 : List Scalar) (hlen : out0.length = input.length) :
    parallel_for input.length body out0 = some (input.map h) := by
  have inv : ∀ k, k ≤ input.length →
      ∃ s, (List.range k).foldlM (fun acc ind => body ind acc) out0 = some s ∧
        s.length = input.length ∧
        (∀ j, j < k → s[j]? = (input.map h)[j]?) ∧ (∀ j, k ≤ j → s[j]? = out0[j]?) := by
    intro k
    induction k with
    | zero =>
      intro _
      exact ⟨out0, by simp, hlen, fun j hj => absurd hj (by omega), fun j _ => rfl⟩
    | succ k ih =>
      intro hk
      obtain ⟨s, hs, hl, h1, h2⟩ := ih (by omega)
      have hki : k < input.length := by omega
      refine ⟨s.set k (h (input.get ⟨k, hki⟩)), ?_, by simpa using hl, ?_, ?_⟩
      · rw [List.range_succ, List.foldlM_append, hs]
        simp [hbody k s hki, store, hl, hki]
      · intro j hj
        by_cases hjk : j = k
        · subst hjk
          simp [List.getElem?_set, hl, hki, List.getElem?_eq_getElem hki]
        · rw [List.getElem?_set_ne (Ne.symm hjk)]
          exact h1 j (by omega)
      · intro j hj
        rw [List.getElem?_set_ne (by omega)]
        exact h2 j (by omega)
  obtain ⟨s, hs, _, h1, _⟩ := inv input.length (le_refl _)
  have : s = input.map h := by
    apply List.ext_getElem?
    intro j
    by_cases hj : j < input.length
    · exact h1 j hj
    · rw [List.getElem?_eq_none (by omega), List.getElem?_eq_none (by simp; omega)]
  simp only [parallel_for]
  rw [hs, this]

theorem bucketize_search_path (T T_BOUNDARIES T_IND : CType) (n : Node)
    (src0 src1 dst : Memory) (sel : Bool)
    (hT : ∀ x ∈ src0.data, x.ctype = T) (hB : ∀ b ∈ src1.data, b.ctype = T_BOUNDARIES)
    (hO : ∀ y ∈ dst.data, y.ctype = T_IND)
    (hbins : n.with_bins = true)
    (hM : n.num_bin_values = src1.data.length) (hN : n.num_values = src0.data.length)
    (hD : dst.data.length = src0.data.length)
    (f : Scalar → Nat)
    (hf : ∀ v ∈ src0.data, searchIndex n.with_right src1.data src1.data.length v = some (f v)) :
    bucketize T T_BOUNDARIES T_IND n ⟨some src0, some src1, some dst, sel⟩ =
      some (src0.data.map (fun v => static_cast T_IND (f v))) := by
  simp only [bucketize, getDataAs_some T src0 hT, getDataAs_some T_BOUNDARIES src1 hB,
    getDataAs_some T_IND dst hO, hbins, hM, hN]
  apply parallel_for_store src0.data (fun v => static_cast T_IND (f v)) _ _ dst.data hD
  intro ind out hi
  rw [List.getElem?_eq_getElem hi]
  simp only
  rw [hf _ (List.getElem_mem _)]
  rfl

theorem bucketize_memset_path (T T_BOUNDARIES T_IND : CType) (n : Node)
    (src0 src1 dst : Memory) (sel : Bool)
    (hT : ∀ x ∈ src0.data, x.ctype = T) (hB : ∀ b ∈ src1.data, b.ctype = T_BOUNDARIES)
    (hO : ∀ y ∈ dst.data, y.ctype = T_IND)
    (hbins : n.with_bins = false) (hD : dst.data.length = n.num_values) :
    bucketize T T_BOUNDARIES T_IND n ⟨some src0, some src1, some dst, sel⟩ =
      some (List.replicate n.num_values (zeroValue T_IND)) := by
  simp [bucketize, getDataAs_some T src0 hT, getDataAs_some T_BOUNDARIES src1 hB,
    getDataAs_some T_IND dst hO, hbins, memset_zero, hD]

/-! ## The precision mask -/

theorem getElementsMask_eq_sum (id : Type_t → Nat) (hid : ∀ t, id t < 256) (a b c d : Type_t) :
    getElementsMask id a b c d = id a + 256 * id b + 65536 * id c + 16777216 * id d := by
  have ha := hid a
  have hb := hid b
  have hc := hid c
  have hd := hid d
  simp only [getElementsMask, Nat.shiftLeft_eq]
  rw [Nat.mod_eq_of_lt (by omega : id a < 2 ^ 32), Nat.mod_eq_of_lt (by omega : id b < 2 ^ 32),
    Nat.mod_eq_of_lt (by omega : id c < 2 ^ 32), Nat.mod_eq_of_lt (by omega : id d < 2 ^ 32),
    Nat.mod_eq_of_lt (by omega : id b * 2 ^ 8 < 2 ^ 32),
    Nat.mod_eq_of_lt (by omega : id c * 2 ^ 16 < 2 ^ 32),
    Nat.mod_eq_of_lt (by omega : id d * 2 ^ 24 < 2 ^ 32)]
  rw [Nat.or_comm (id a), Nat.mul_comm (id b), ← Nat.mul_add_lt_is_or (by omega : id a < 2 ^ 8),
    Nat.or_comm _ (id c * 2 ^ 16), Nat.mul_comm (id c),
    ← Nat.mul_add_lt_is_or (by omega : 2 ^ 8 * id b + id a < 2 ^ 16),
    Nat.or_comm _ (id d * 2 ^ 24), Nat.mul_comm (id d),
    ← Nat.mul_add_lt_is_or (by omega : 2 ^ 16 * id c + (2 ^ 8 * id b + id a) < 2 ^ 24)]
  omega

theorem getElementsMask_injective (id : Type_t → Nat) (hid : ∀ t, id t < 256)
    (hinj : Function.Injective id) {a b c a' b' c' : Type_t}
    (h : getElementsMask id a b c .dynamic = getElementsMask id a' b' c' .dynamic) :
    a = a' ∧ b = b' ∧ c = c' := by
  rw [getElementsMask_eq_sum id hid, getElementsMask_eq_sum id hid] at h
  have ha := hid a
  have hb := hid b
  have hc := hid c
  have ha' := hid a'
  have hb' := hid b'
  have hc' := hid c'
  exact ⟨hinj (by omega), hinj (by omega), hinj (by omega)⟩

theorem getElementsMask_eq_iff (id : Type_t → Nat) (hid : ∀ t, id t < 256)
    (hinj : Function.Injective id) (a b c a' b' c' : Type_t) :
    getElementsMask id a b c .dynamic = getElementsMask id a' b' c' .dynamic ↔
      a = a' ∧ b = b' ∧ c = c' :=
  ⟨fun h => getElementsMask_injective id hid hinj h, fun ⟨h1, h2, h3⟩ => by rw [h1, h2, h3]⟩

theorem execute_switch_supported (id : Type_t → Nat) (hid : ∀ t, id t < 256)
    (hinj : Function.Injective id) (a b c : Type_t) (h : supportedCombination a b c = true) :
    ∃ T TB TI, value_type a = some T ∧ value_type b = some TB ∧ value_type c = some TI ∧
      TI ≠ CType.float ∧
      execute_switch id (getElementsMask id a b c .dynamic) = some (T, TB, TI) := by
  simp only [supportedCombination, List.contains_cons, List.contains_nil, Bool.or_false,
    Bool.and_eq_true, Bool.or_eq_true, beq_iff_eq] at h
  obtain ⟨⟨ha, hb⟩, hc⟩ := h
  rcases ha with rfl | rfl | rfl <;> rcases hb with rfl | rfl | rfl <;> rcases hc with rfl | rfl <;>
    simp [execute_switch, getElementsMask_eq_iff id hid hinj, value_type]

theorem execute_switch_unsupported (id : Type_t → Nat) (hid : ∀ t, id t < 256)
    (hinj : Function.Injective id) (a b c : Type_t) (h : supportedCombination a b c = false) :
    execute_switch id (getElementsMask id a b c .dynamic) = none := by
  have key : ∀ x y z, supportedCombination x y z = true → ¬ (a = x ∧ b = y ∧ c = z) := by
    rintro x y z hs ⟨rfl, rfl, rfl⟩
    rw [h] at hs
    cases hs
  simp only [execute_switch, getElementsMask_eq_iff id hid hinj]
  rw [if_neg (key .f32 .f32 .i32 rfl),
    if_neg (key .f32 .f32 .i64 rfl),
    if_neg (key .f32 .i32 .i32 rfl),
    if_neg (key .f32 .i32 .i64 rfl),
    if_neg (key .f32 .i64 .i32 rfl),
    if_neg (key .f32 .i64 .i64 rfl),
    if_neg (key .i32 .f32 .i32 rfl),
    if_neg (key .i32 .f32 .i64 rfl),
    if_neg (key .i32 .i32 .i32 rfl),
    if_neg (key .i32 .i32 .i64 rfl),
    if_neg (key .i32 .i64 .i32 rfl),
    if_neg (key .i32 .i64 .i64 rfl),
    if_neg (key .i64 .f32 .i32 rfl),
    if_neg (key .i64 .f32 .i64 rfl),
    if_neg (key .i64 .i32 .i32 rfl),
    if_neg (key .i64 .i32 .i64 rfl),
    if_neg (key .i64 .i64 .i32 rfl),
    if_neg (key .i64 .i64 .i64 rfl)]

/-! ## The index of the search on sorted boundaries -/

theorem searchIndex_right (B : List Scalar) (v : Scalar) (hs : strictlyAscending B) :
    searchIndex true B B.length v = some (B.countP (fun b => Scalar.less b v)) := by
  simp only [searchIndex, if_true]
  apply lower_bound_eq_countP
  exact (pairwise_less_of_strictlyAscending hs).imp (fun hab hb => Scalar.less_trans hab hb)

theorem searchIndex_open (B : List Scalar) (v : Scalar) (hs : strictlyAscending B) :
    searchIndex false B B.length v = some (B.countP (fun b => !Scalar.less v b)) := by
  simp only [searchIndex, Bool.false_eq_true, if_false]
  apply upper_bound_eq_countP
  exact (pairwise_less_of_strictlyAscending hs).imp (fun hab ha => Scalar.less_trans ha hab)

theorem countP_less_eq_firstPosition (B : List Scalar) (v : Scalar) (hs : strictlyAscending B)
    (hv : v.isNaN = false) (hB : ∀ b ∈ B, b.isNaN = false) :
    B.countP (fun b => Scalar.less b v) = firstPosition (fun b => Scalar.lessEq v b) B := by
  simp only [firstPosition]
  rw [takeWhile_congr_mem (fun b => !Scalar.lessEq v b) (fun b => Scalar.less b v) B
    (fun b hb => Scalar.not_lessEq_eq_less hv (hB b hb))]
  symm
  apply takeWhile_length_eq_countP
  exact (pairwise_less_of_strictlyAscending hs).imp (fun hab hb => Scalar.less_trans hab hb)

theorem countP_not_less_eq_firstPosition (B : List Scalar) (v : Scalar) (hs : strictlyAscending B) :
    B.countP (fun b => !Scalar.less v b) = firstPosition (fun b => Scalar.less v b) B := by
  simp only [firstPosition]
  symm
  apply takeWhile_length_eq_countP (fun b => !Scalar.less v b)
  refine (pairwise_less_of_strictlyAscending hs).imp ?_
  intro a b hab hb
  cases ha : Scalar.less v a
  · rfl
  · simp [Scalar.less_trans ha hab] at hb

theorem countP_not_less_eq_countP_lessEq (B : List Scalar) (v : Scalar)
    (hv : v.isNaN = false) (hB : ∀ b ∈ B, b.isNaN = false) :
    B.countP (fun b => !Scalar.less v b) = B.countP (fun b => Scalar.lessEq b v) := by
  apply List.countP_congr
  intro b hb
  rw [← Scalar.not_lessEq_eq_less (hB b hb) hv]
  simp

/-- C1 (amended).  Right-bound mode (`with_right = true`), search path: for
every boundary array sorted ascending without duplicates the value written for
an input element `v` is `static_cast<T_IND>` of the index the search computes,
and that index is the number of boundaries `b` with `b < v` (the built-in
comparison of the two element types).  When neither `v` nor a boundary is a NaN
this number is also the position of the first boundary `b` with `b >= v` (the
length if there is none). -/
theorem bucketize_right_bound_counts_less (T T_BOUNDARIES T_IND : CType) (n : Node)
    (src0 src1 dst : Memory) (sel : Bool)
    (hT : ∀ x ∈ src0.data, x.ctype = T) (hB : ∀ b ∈ src1.data, b.ctype = T_BOUNDARIES)
    (hO : ∀ y ∈ dst.data, y.ctype = T_IND)
    (hbins : n.with_bins = true) (hright : n.with_right = true)
    (hM : n.num_bin_values = src1.data.length) (hN : n.num_values = src0.data.length)
    (hD : dst.data.length = src0.data.length)
    (hsorted : strictlyAscending src1.data) :
    bucketize T T_BOUNDARIES T_IND n ⟨some src0, some src1, some dst, sel⟩ =
        some (src0.data.map (fun v =>
          static_cast T_IND ((src1.data.countP (fun b => Scalar.less b v) : Nat) : Int))) ∧
      (∀ v, searchIndex true src1.data src1.data.length v =
        some (src1.data.countP (fun b => Scalar.less b v))) ∧
      (∀ v, v.isNaN = false → (∀ b ∈ src1.data, b.isNaN = false) →
        src1.data.countP (fun b => Scalar.less b v) =
          firstPosition (fun b => Scalar.lessEq v b) src1.data) := by
  refine ⟨?_, fun v => searchIndex_right _ v hsorted,
    fun v hv hb => countP_less_eq_firstPosition _ v hsorted hv hb⟩
  apply bucketize_search_path T T_BOUNDARIES T_IND n src0 src1 dst sel hT hB hO hbins hM hN hD
    (fun v => src1.data.countP (fun b => Scalar.less b v))
  intro v _
  rw [hright]
  exact searchIndex_right _ v hsorted

theorem bucketize_right_bound_counts_less_witness :
    strictlyAscending scenarioBoundaries ∧
      bucketize .float .float .int32_t (scenarioNode true 6 3)
          ⟨some (block scenarioInput), some (block scenarioBoundaries),
            some (block (staleOutput 6)), true⟩ =
        some [.i32 0, .i32 0, .i32 1, .i32 2, .i32 2, .i32 3] :=
  ⟨by decide,
    (bucketize_right_bound_counts_less .float .float .int32_t (scenarioNode true 6 3)
      (block scenarioInput) (block scenarioBoundaries) (block (staleOutput 6)) true
      (by decide) (by decide) (by decide) rfl rfl rfl rfl rfl (by decide)).1.trans (by decide)⟩

/-- C1, the claim as stated fails on a NaN input: with boundaries
`[1.0, 5.0, 10.0]` in right-bound mode the kernel writes index `0` for a NaN,
while no boundary is `>=` the NaN, so the position of the first boundary `>= v`
is the length `3`. -/
theorem right_bound_first_position_fails_on_nan :
    strictlyAscending scenarioBoundaries ∧
      bucketize .float .float .int32_t (scenarioNode true 1 3)
          ⟨some (block [.f32 .nan]), some (block scenarioBoundaries),
            some (block (staleOutput 1)), true⟩ = some [.i32 0] ∧
      scenarioBoundaries.countP (fun b => Scalar.less b (.f32 .nan)) = 0 ∧
      firstPosition (fun b => Scalar.lessEq (.f32 .nan) b) scenarioBoundaries = 3 := by
  decide

/-- C2 (amended).  Open mode (`with_right = false`), search path: for every
boundary array sorted ascending without duplicates the value written for an
input element `v` is `static_cast<T_IND>` of the index the search computes, and
that index is the position of the first boundary `b` with `v < b` (the length
if there is none).  When neither `v` nor a boundary is a NaN it is also the
number of boundaries `b` with `b <= v`. -/
theorem bucketize_open_first_greater (T T_BOUNDARIES T_IND : CType) (n : Node)
    (src0 src1 dst : Memory) (sel : Bool)
    (hT : ∀ x ∈ src0.data, x.ctype = T) (hB : ∀ b ∈ src1.data, b.ctype = T_BOUNDARIES)
    (hO : ∀ y ∈ dst.data, y.ctype = T_IND)
    (hbins : n.with_bins = true) (hright : n.with_right = false)
    (hM : n.num_bin_values = src1.data.length) (hN : n.num_values = src0.data.length)
    (hD : dst.data.length = src0.data.length)
    (hsorted : strictlyAscending src1.data) :
    bucketize T T_BOUNDARIES T_IND n ⟨some src0, some src1, some dst, sel⟩ =
        some (src0.data.map (fun v =>
          static_cast T_IND ((firstPosition (fun b => Scalar.less v b) src1.data : Nat) : Int))) ∧
      (∀ v, searchIndex false src1.data src1.data.length v =
        some (firstPosition (fun b => Scalar.less v b) src1.data)) ∧
      (∀ v, v.isNaN = false → (∀ b ∈ src1.data, b.isNaN = false) →
        firstPosition (fun b => Scalar.less v b) src1.data =
          src1.data.countP (fun b => Scalar.lessEq b v)) := by
  have hidx : ∀ v, searchIndex false src1.data src1.data.length v =
      some (firstPosition (fun b => Scalar.less v b) src1.data) := by
    intro v
    rw [searchIndex_open _ v hsorted, countP_not_less_eq_firstPosition _ v hsorted]
  refine ⟨?_, hidx, fun v hv hb => ?_⟩
  · apply bucketize_search_path T T_BOUNDARIES T_IND n src0 src1 dst sel hT hB hO hbins hM hN hD
      (fun v => firstPosition (fun b => Scalar.less v b) src1.data)
    intro v _
    rw [hright]
    exact hidx v
  · rw [← countP_not_less_eq_firstPosition _ v hsorted,
      countP_not_less_eq_countP_lessEq _ v hv hb]

theorem bucketize_open_first_greater_witness :
    strictlyAscending scenarioBoundaries ∧
      bucketize .float .float .int32_t (scenarioNode false 6 3)
          ⟨some (block scenarioInput), some (block scenarioBoundaries),
            some (block (staleOutput 6)), true⟩ =
        some [.i32 0, .i32 1, .i32 2, .i32 2, .i32 3, .i32 3] :=
  ⟨by decide,
    (bucketize_open_first_greater .float .float .int32_t (scenarioNode false 6 3)
      (block scenarioInput) (block scenarioBoundaries) (block (staleOutput 6)) true
      (by decide) (by decide) (by decide) rfl rfl rfl rfl rfl (by decide)).1.trans (by decide)⟩

/-- C2, the claim as stated fails on a NaN input: with boundaries
`[1.0, 5.0, 10.0]` in open mode the kernel writes index `3` for a NaN, while no
boundary is `<=` the NaN, so the number of boundaries `<= v` is `0`. -/
theorem open_count_fails_on_nan :
    strictlyAscending scenarioBoundaries ∧
      bucketize .float .float .int32_t (scenarioNode false 1 3)
          ⟨some (block [.f32 .nan]), some (block scenarioBoundaries),
            some (block (staleOutput 1)), true⟩ = some [.i32 3] ∧
      scenarioBoundaries.countP (fun b => Scalar.lessEq b (.f32 .nan)) = 0 ∧
      firstPosition (fun b => Scalar.less (.f32 .nan) b) scenarioBoundaries = 3 := by
  decide

/-- C3.  For every boundary array, sorted or not, with or without duplicates,
every input value and both modes, the search of the kernel ends, reads no
position outside the array, and yields an index between `0` and the length. -/
theorem searchIndex_terminates_in_range (with_right : Bool) (B : List Scalar) (v : Scalar) :
    ∃ i, searchIndex with_right B B.length v = some i ∧ 0 ≤ i ∧ i ≤ B.length := by
  cases with_right
  · obtain ⟨r, hr, hle⟩ := upper_bound_in_range (fun v b => Scalar.less v b) B v
    exact ⟨r, by simpa [searchIndex] using hr, Nat.zero_le _, hle⟩
  · obtain ⟨r, hr, hle⟩ := lower_bound_in_range (fun b v => Scalar.less b v) B v
    exact ⟨r, by simpa [searchIndex] using hr, Nat.zero_le _, hle⟩

/-- C5.  Monotonicity: for sorted, duplicate-free boundaries, in each mode, two
input values of the element type of the input with `v <= w` get indices
`i <= j`. -/
theorem searchIndex_monotone (with_right : Bool) (B : List Scalar) (v w : Scalar)
    (hsorted : strictlyAscending B) (htype : v.ctype = w.ctype)
    (hvw : Scalar.lessEq v w = true) :
    ∃ i j, searchIndex with_right B B.length v = some i ∧
      searchIndex with_right B B.length w = some j ∧ i ≤ j := by
  cases with_right
  · refine ⟨_, _, searchIndex_open B v hsorted, searchIndex_open B w hsorted, ?_⟩
    apply List.countP_mono_left
    intro b _ hb
    cases hw : Scalar.less w b
    · rfl
    · simp [Scalar.less_of_lessEq_of_less htype hvw hw] at hb
  · refine ⟨_, _, searchIndex_right B v hsorted, searchIndex_right B w hsorted, ?_⟩
    apply List.countP_mono_left
    intro b _ hb
    exact Scalar.less_of_less_of_lessEq htype hb hvw

theorem searchIndex_monotone_witness :
    strictlyAscending scenarioBoundaries ∧
      Scalar.lessEq (.f32 (.ofInt 5)) (.f32 (.ofInt 7)) = true ∧
      ∃ i j, searchIndex true scenarioBoundaries scenarioBoundaries.length (.f32 (.ofInt 5)) = some i ∧
        searchIndex true scenarioBoundaries scenarioBoundaries.length (.f32 (.ofInt 7)) = some j ∧
        i ≤ j :=
  ⟨by decide, by decide,
    searchIndex_monotone true scenarioBoundaries (.f32 (.ofInt 5)) (.f32 (.ofInt 7))
      (by decide) rfl (by decide)⟩

/-! ## Exact hits -/

theorem position_lt (t : Type_t) : Type_t.position t < 256 := by
  cases t <;> decide

theorem position_injective : Function.Injective Type_t.position := by
  intro a b h
  cases a <;> cases b <;> first | rfl | exact absurd h (by decide)

theorem prepareParams_ok {n n' : Node} {p : Ports} (h : prepareParams n p = .ok n') :
    n'.num_bin_values = (getStaticDims p.src1).headD 0 ∧
      n'.num_values = (getStaticDims p.src0).foldl (fun acc d => acc * d % 2 ^ 64) 1 ∧
      n'.with_bins = (n.with_bins || decide ((getStaticDims p.src1).headD 0 ≠ 0)) ∧
      n'.with_right = n.with_right ∧
      n'.input_precision = n.input_precision ∧
      n'.boundaries_precision = n.boundaries_precision ∧
      n'.output_precision = n.output_precision := by
  simp only [prepareParams] at h
  split_ifs at h
  all_goals (cases h; simp_all)

theorem searchIndex_nil (with_right : Bool) (v : Scalar) : searchIndex with_right [] 0 v = some 0 := by
  cases with_right <;> rfl

theorem static_cast_zero {T_IND : CType} (h : T_IND ≠ .float) :
    static_cast T_IND ((0 : Nat) : Int) = zeroValue T_IND := by
  cases T_IND
  · exact absurd rfl h
  · decide
  · decide

theorem ctype_of_value_type {t : Type_t} {T : CType} (xs : List Scalar)
    (ht : value_type t = some T) (h : ∀ x ∈ xs, value_type t = some x.ctype) :
    ∀ x ∈ xs, x.ctype = T := by
  intro x hx
  have := h x hx
  rw [ht] at this
  exact (Option.some.inj this).symm

/-- C6.  Empty boundaries: after a successful `prepareParams` on a boundary
tensor of length `0`, `execute` returns with every one of the `num_values`
output elements set to zero, whatever the input holds, for each of the supported
element-type combinations, for both values of `with_right` and whatever
`with_bins` was before. -/
theorem execute_empty_boundaries_zero (id : Type_t → Nat) (hid : ∀ t, id t < 256)
    (hinj : Function.Injective id) (n0 n : Node) (src0 src1 dst : Memory) (sel : Bool)
    (hprep : prepareParams n0 ⟨some src0, some src1, some dst, sel⟩ = .ok n)
    (hdims : src1.staticDims = [0]) (hdata : src1.data = [])
    (hsup : supportedCombination n0.input_precision n0.boundaries_precision
      n0.output_precision = true)
    (hT : ∀ x ∈ src0.data, value_type n0.input_precision = some x.ctype)
    (hO : ∀ y ∈ dst.data, value_type n0.output_precision = some y.ctype)
    (hN : src0.data.length = n.num_values) (hD : dst.data.length = n.num_values) :
    n.num_bin_values = 0 ∧
      ∃ T_IND, value_type n.output_precision = some T_IND ∧
        execute id n ⟨some src0, some src1, some dst, sel⟩ =
          .returned (List.replicate n.num_values (zeroValue T_IND)) := by
  obtain ⟨hM, _, _, _, hip, hbp, hop⟩ := prepareParams_ok hprep
  simp only [getStaticDims, hdims, List.headD_cons] at hM
  obtain ⟨T, TB, TI, hvT, _, hvI, hTI, hsw⟩ :=
    execute_switch_supported id hid hinj _ _ _ hsup
  refine ⟨hM, TI, by rw [hop]; exact hvI, ?_⟩
  have hT' := ctype_of_value_type src0.data hvT hT
  have hO' := ctype_of_value_type dst.data hvI hO
  have hB' : ∀ b ∈ src1.data, b.ctype = TB := by
    intro b hb
    rw [hdata] at hb
    cases hb
  simp only [execute, hip, hbp, hop, hsw]
  cases hwb : n.with_bins
  · rw [bucketize_memset_path T TB TI n src0 src1 dst sel hT' hB' hO' hwb hD]
  · rw [bucketize_search_path T TB TI n src0 src1 dst sel hT' hB' hO' hwb
      (by rw [hM, hdata]; rfl) hN.symm (by rw [hD, hN]) (fun _ => 0)
      (by intro v _; rw [hdata]; exact searchIndex_nil _ v)]
    simp only [static_cast_zero hTI, List.map_const', hN]

theorem execute_empty_boundaries_zero_witness :
    prepareParams negotiatedNode (portsWithBoundaries []) =
        .ok ⟨true, false, 2, 0, .f32, .f32, .i32, [(.f32, .f32, .i32)]⟩ ∧
      execute Type_t.position ⟨true, false, 2, 0, .f32, .f32, .i32, [(.f32, .f32, .i32)]⟩
          (portsWithBoundaries []) = .returned [.i32 0, .i32 0] := by
  refine ⟨rfl, ?_⟩
  obtain ⟨T_IND, hv, he⟩ :=
    (execute_empty_boundaries_zero Type_t.position position_lt position_injective negotiatedNode
      ⟨true, false, 2, 0, .f32, .f32, .i32, [(.f32, .f32, .i32)]⟩
      (block (floats [3, -1])) (block []) (block (staleOutput 2)) true
      rfl rfl rfl (by decide) (by decide) (by decide) rfl rfl).2
  cases hv
  exact he

/-- C7.  Dispatch completeness: `execute` reaches a case of the `switch`, and
so does not throw, exactly when the three precisions of the node form one of the
18 supported combinations; for every other triple it throws
`has unsupported precision` with the mask and leaves the destination as it
was.  The identifiers of the element types are any distinct numbers below 256. -/
theorem execute_dispatch_complete (id : Type_t → Nat) (hid : ∀ t, id t < 256)
    (hinj : Function.Injective id) (n : Node) (p : Ports) :
    (supportedCombination n.input_precision n.boundaries_precision n.output_precision = true ↔
        (execute_switch id (getElementsMask id n.input_precision n.boundaries_precision
          n.output_precision .dynamic)).isSome = true) ∧
      (supportedCombination n.input_precision n.boundaries_precision n.output_precision = true ↔
        ∀ e d, execute id n p ≠ .threw e d) ∧
      (supportedCombination n.input_precision n.boundaries_precision n.output_precision = false →
        execute id n p =
          .threw (.unsupported_precision (getElementsMask id n.input_precision
            n.boundaries_precision n.output_precision .dynamic)) (p.dst.map (fun m => m.data))) := by
  have hthrow : supportedCombination n.input_precision n.boundaries_precision
      n.output_precision = false →
      execute id n p = .threw (.unsupported_precision (getElementsMask id n.input_precision
        n.boundaries_precision n.output_precision .dynamic)) (p.dst.map (fun m => m.data)) := by
    intro h
    simp only [execute, execute_switch_unsupported id hid hinj _ _ _ h]
  have hok : supportedCombination n.input_precision n.boundaries_precision
      n.output_precision = true → ∀ e d, execute id n p ≠ .threw e d := by
    intro h e d
    obtain ⟨T, TB, TI, _, _, _, _, hsw⟩ := execute_switch_supported id hid hinj _ _ _ h
    simp only [execute, hsw]
    cases bucketize T TB TI n p <;> simp
  refine ⟨⟨fun h => ?_, fun h => ?_⟩, ⟨hok, fun h => ?_⟩, hthrow⟩
  · obtain ⟨T, TB, TI, _, _, _, _, hsw⟩ := execute_switch_supported id hid hinj _ _ _ h
    rw [hsw]
    rfl
  · cases hs : supportedCombination n.input_precision n.boundaries_precision n.output_precision
    · rw [execute_switch_unsupported id hid hinj _ _ _ hs] at h
      cases h
    · rfl
  · cases hs : supportedCombination n.input_precision n.boundaries_precision n.output_precision
    · exact absurd (hthrow hs) (h _ _)
    · rfl

theorem execute_dispatch_complete_witness :
    (∀ t, Type_t.position t < 256) ∧ Function.Injective Type_t.position ∧
      execute Type_t.position { scenarioNode true 6 3 with output_precision := .i8 }
          ⟨some (block scenarioInput), some (block scenarioBoundaries),
            some (block (staleOutput 6)), true⟩ =
        .threw (.unsupported_precision 459780) (some (staleOutput 6)) :=
  ⟨position_lt, position_injective,
    ((execute_dispatch_complete Type_t.position position_lt position_injective
      { scenarioNode true 6 3 with output_precision := .i8 }
      ⟨some (block scenarioInput), some (block scenarioBoundaries),
        some (block (staleOutput 6)), true⟩).2.2 (by decide)).trans (by decide)⟩

theorem initSupportedPrimitiveDescriptors_fresh (n : Node) (a b c : Type_t)
    (h : n.supportedPrimitiveDescriptors = []) :
    (initSupportedPrimitiveDescriptors n a b c).input_precision =
        (if a = .f32 ∨ a = .i32 ∨ a = .i64 then a else .f32) ∧
      (initSupportedPrimitiveDescriptors n a b c).boundaries_precision =
        (if b = .f32 ∨ b = .i32 ∨ b = .i64 then b else .f32) ∧
      (initSupportedPrimitiveDescriptors n a b c).output_precision =
        (if c = .i32 ∨ c = .i64 then c else .i32) := by
  simp only [initSupportedPrimitiveDescriptors, h, none_of, List.isEmpty_nil, Bool.not_true,
    Bool.false_eq_true, if_false, List.contains_cons, List.contains_nil, Bool.or_false,
    Bool.not_eq_true', Bool.or_eq_false_iff, beq_eq_false_iff_ne, ne_eq]
  refine ⟨?_, ?_, ?_⟩
  · by_cases h1 : a = .f32 <;> by_cases h2 : a = .i32 <;> by_cases h3 : a = .i64 <;> simp [h1, h2, h3]
  · by_cases h1 : b = .f32 <;> by_cases h2 : b = .i32 <;> by_cases h3 : b = .i64 <;> simp [h1, h2, h3]
  · by_cases h2 : c = .i32 <;> by_cases h3 : c = .i64 <;> simp [h2, h3]

/-- C8.  Precision negotiation, on a node without primitive descriptors: for
every requested triple the resolved input type is the requested one if it is
`f32`, `i32` or `i64` and `f32` otherwise; the resolved boundary type follows
the same rule on its own requested type; the resolved output type is the
requested one if it is `i32` or `i64` and `i32` otherwise. -/
theorem negotiation_resolves_each_port (n : Node) (a b c : Type_t)
    (h : n.supportedPrimitiveDescriptors = []) :
    (initSupportedPrimitiveDescriptors n a b c).input_precision =
        (if a = .f32 ∨ a = .i32 ∨ a = .i64 then a else .f32) ∧
      (initSupportedPrimitiveDescriptors n a b c).boundaries_precision =
        (if b = .f32 ∨ b = .i32 ∨ b = .i64 then b else .f32) ∧
      (initSupportedPrimitiveDescriptors n a b c).output_precision =
        (if c = .i32 ∨ c = .i64 then c else .i32) :=
  initSupportedPrimitiveDescriptors_fresh n a b c h

theorem negotiation_resolves_each_port_witness :
    freshNode.supportedPrimitiveDescriptors = [] ∧
      (initSupportedPrimitiveDescriptors freshNode .f16 .i64 .i8).input_precision = .f32 ∧
      (initSupportedPrimitiveDescriptors freshNode .f16 .i64 .i8).boundaries_precision = .i64 ∧
      (initSupportedPrimitiveDescriptors freshNode .f16 .i64 .i8).output_precision = .i32 :=
  ⟨rfl, negotiation_resolves_each_port freshNode .f16 .i64 .i8 rfl⟩

theorem initSupportedPrimitiveDescriptors_supported (n : Node) (a b c : Type_t)
    (h : n.supportedPrimitiveDescriptors ≠ [] →
      supportedCombination n.input_precision n.boundaries_precision n.output_precision = true) :
    supportedCombination (initSupportedPrimitiveDescriptors n a b c).input_precision
      (initSupportedPrimitiveDescriptors n a b c).boundaries_precision
      (initSupportedPrimitiveDescriptors n a b c).output_precision = true := by
  by_cases he : n.supportedPrimitiveDescriptors = []
  · obtain ⟨h1, h2, h3⟩ := initSupportedPrimitiveDescriptors_fresh n a b c he
    rw [h1, h2, h3]
    simp only [supportedCombination, List.contains_cons, List.contains_nil, Bool.or_false,
      Bool.and_eq_true, Bool.or_eq_true, beq_iff_eq]
    refine ⟨⟨?_, ?_⟩, ?_⟩
    · split_ifs with h4
      · exact h4
      · exact Or.inl rfl
    · split_ifs with h4
      · exact h4
      · exact Or.inl rfl
    · split_ifs with h4
      · exact h4
      · exact Or.inl rfl
  · have hn : initSupportedPrimitiveDescriptors n a b c = n := by
      cases hl : n.supportedPrimitiveDescriptors with
      | nil => exact absurd hl he
      | cons x xs => simp [initSupportedPrimitiveDescriptors, hl]
    rw [hn]
    exact h he

/-- C9.  Negotiation and dispatch agree: on a node that has no primitive
descriptors yet (or whose precisions are already a supported combination), for
every requested triple the precisions after `initSupportedPrimitiveDescriptors`
form one of the 18 supported combinations, and a following `execute`, directly
or after a successful `prepareParams`, does not throw. -/
theorem negotiated_precisions_never_reach_default (id : Type_t → Nat) (hid : ∀ t, id t < 256)
    (hinj : Function.Injective id) (n : Node) (a b c : Type_t)
    (h : n.supportedPrimitiveDescriptors ≠ [] →
      supportedCombination n.input_precision n.boundaries_precision n.output_precision = true) :
    supportedCombination (initSupportedPrimitiveDescriptors n a b c).input_precision
        (initSupportedPrimitiveDescriptors n a b c).boundaries_precision
        (initSupportedPrimitiveDescriptors n a b c).output_precision = true ∧
      (∀ p e d, execute id (initSupportedPrimitiveDescriptors n a b c) p ≠ .threw e d) ∧
      (∀ p0 n' p e d, prepareParams (initSupportedPrimitiveDescriptors n a b c) p0 = .ok n' →
        execute id n' p ≠ .threw e d) := by
  have hs := initSupportedPrimitiveDescriptors_supported n a b c h
  have key : ∀ (m : Node) (p : Ports),
      supportedCombination m.input_precision m.boundaries_precision m.output_precision = true →
      ∀ e d, execute id m p ≠ .threw e d := by
    intro m p hm e d
    obtain ⟨T, TB, TI, _, _, _, _, hsw⟩ := execute_switch_supported id hid hinj _ _ _ hm
    simp only [execute, hsw]
    cases bucketize T TB TI m p <;> simp
  refine ⟨hs, fun p e d => key _ p hs e d, fun p0 n' p e d hp => ?_⟩
  obtain ⟨_, _, _, _, hip, hbp, hop⟩ := prepareParams_ok hp
  exact key n' p (by rw [hip, hbp, hop]; exact hs) e d

theorem negotiated_precisions_never_reach_default_witness :
    (∀ t, Type_t.position t < 256) ∧ Function.Injective Type_t.position ∧
      supportedCombination (initSupportedPrimitiveDescriptors freshNode .f16 .u8 .boolean).input_precision
        (initSupportedPrimitiveDescriptors freshNode .f16 .u8 .boolean).boundaries_precision
        (initSupportedPrimitiveDescriptors freshNode .f16 .u8 .boolean).output_precision = true :=
  ⟨position_lt, position_injective,
    (negotiated_precisions_never_reach_default Type_t.position position_lt position_injective
      freshNode .f16 .u8 .boolean (fun hne => absurd rfl hne)).1⟩

/-- C10, the code on a sequence of two calls: whatever the node was before,
`prepareParams` on a boundary tensor of length `3` followed by `prepareParams`
on a boundary tensor of length `0` succeeds twice and leaves `num_bin_values = 0`
with `with_bins` still `true`. -/
theorem prepareParams_keeps_with_bins_after_shrink (n : Node) :
    ∃ n1 n2, prepareParams n (portsWithBoundaries scenarioBoundaries) = .ok n1 ∧
      prepareParams n1 (portsWithBoundaries []) = .ok n2 ∧
      n1.num_bin_values = 3 ∧ n1.with_bins = true ∧
      n2.num_bin_values = 0 ∧ n2.with_bins = true :=
  ⟨_, _, rfl, rfl, rfl, rfl, rfl, rfl⟩

/-! ## Frame of the kernel: what is written and what is left -/

theorem parallel_for_store_frame (input : List Scalar) (h : Scalar → Scalar)
    (body : Nat → List Scalar → Option (List Scalar))
    (hbody : ∀ ind out (hi : ind < input.length),
      body ind out = store out ind (h (input.get ⟨ind, hi⟩)))
    (out0 : List Scalar) (hlen : input.length ≤ out0.length) :
    parallel_for input.length body out0 =
      some (input.map h ++ out0.drop input.length) := by
  have inv : ∀ k, k ≤ input.length →
      ∃ s, (List.range k).foldlM (fun acc ind => body ind acc) out0 = some s ∧
        s.length = out0.length ∧
        (∀ j, j < k → s[j]? = (input.map h)[j]?) ∧ (∀ j, k ≤ j → s[j]? = out0[j]?) := by
    intro k
    induction k with
    | zero =>
      intro _
      exact ⟨out0, by simp, rfl, fun j hj => absurd hj (by omega), fun j _ => rfl⟩
    | succ k ih =>
      intro hk
      obtain ⟨s, hs, hl, h1, h2⟩ := ih (by omega)
      have hki : k < input.length := by omega
      have hks : k < s.length := by omega
      refine ⟨s.set k (h (input.get ⟨k, hki⟩)), ?_, by simpa using hl, ?_, ?_⟩
      · rw [List.range_succ, List.foldlM_append, hs]
        simp [hbody k s hki, store, hks]
      · intro j hj
        by_cases hjk : j = k
        · subst hjk
          simp [List.getElem?_set, hks, List.getElem?_eq_getElem hki]
        · rw [List.getElem?_set_ne (Ne.symm hjk)]
          exact h1 j (by omega)
      · intro j hj
        rw [List.getElem?_set_ne (by omega)]
        exact h2 j (by omega)
  obtain ⟨s, hs, _, h1, h2⟩ := inv input.length (le_refl _)
  have : s = input.map h ++ out0.drop input.length := by
    apply List.ext_getElem?
    intro j
    by_cases hj : j < input.length
    · rw [List.getElem?_append_left (by simpa using hj)]
      exact h1 j hj
    · rw [List.getElem?_append_right (by simp; omega), List.getElem?_drop, h2 j (by omega)]
      congr 1
      simp
      omega
  simp only [parallel_for]
  rw [hs, this]

theorem bucketize_search_path_frame (T T_BOUNDARIES T_IND : CType) (n : Node)
    (src0 src1 dst : Memory) (sel : Bool)
    (hT : ∀ x ∈ src0.data, x.ctype = T) (hB : ∀ b ∈ src1.data, b.ctype = T_BOUNDARIES)
    (hO : ∀ y ∈ dst.data, y.ctype = T_IND)
    (hbins : n.with_bins = true) (hN : n.num_values = src0.data.length)
    (hD : src0.data.length ≤ dst.data.length)
    (f : Scalar → Nat)
    (hf : ∀ v ∈ src0.data, searchIndex n.with_right src1.data n.num_bin_values v = some (f v)) :
    bucketize T T_BOUNDARIES T_IND n ⟨some src0, some src1, some dst, sel⟩ =
      some (src0.data.map (fun v => static_cast T_IND (f v)) ++
        dst.data.drop src0.data.length) := by
  simp only [bucketize, getDataAs_some T src0 hT, getDataAs_some T_BOUNDARIES src1 hB,
    getDataAs_some T_IND dst hO, hbins, hN]
  apply parallel_for_store_frame src0.data (fun v => static_cast T_IND (f v)) _ _ dst.data hD
  intro ind out hi
  rw [List.getElem?_eq_getElem hi]
  simp only
  rw [hf _ (List.getElem_mem _)]
  rfl

theorem bucketize_memset_path_frame (T T_BOUNDARIES T_IND : CType) (n : Node)
    (src0 src1 dst : Memory) (sel : Bool)
    (hT : ∀ x ∈ src0.data, x.ctype = T) (hB : ∀ b ∈ src1.data, b.ctype = T_BOUNDARIES)
    (hO : ∀ y ∈ dst.data, y.ctype = T_IND)
    (hbins : n.with_bins = false) (hD : n.num_values ≤ dst.data.length) :
    bucketize T T_BOUNDARIES T_IND n ⟨some src0, some src1, some dst, sel⟩ =
      some (List.replicate n.num_values (zeroValue T_IND) ++ dst.data.drop n.num_values) := by
  simp [bucketize, getDataAs_some T src0 hT, getDataAs_some T_BOUNDARIES src1 hB,
    getDataAs_some T_IND dst hO, hbins, memset_zero, hD]

theorem searchIndex_zero (with_right : Bool) (B : List Scalar) (v : Scalar) :
    searchIndex with_right B 0 v = some 0 := by
  cases with_right <;> rfl

theorem static_cast_zero_eq (T_IND : CType) :
    static_cast T_IND ((0 : Nat) : Int) = zeroValue T_IND := by
  cases T_IND <;> decide

theorem static_cast_ctype (T_IND : CType) (d : Int) : (static_cast T_IND d).ctype = T_IND := by
  cases T_IND <;> rfl

theorem searchIndex_eq_bucketIndex (with_right : Bool) (B : List Scalar) (v : Scalar) :
    searchIndex with_right B B.length v = some (bucketIndex with_right B v) := by
  cases with_right
  · obtain ⟨r, hr, _⟩ := upper_bound_in_range (fun v b => Scalar.less v b) B v
    have : searchIndex false B B.length v = some r := by simpa [searchIndex] using hr
    simp [bucketIndex, this]
  · obtain ⟨r, hr, _⟩ := lower_bound_in_range (fun b v => Scalar.less b v) B v
    have : searchIndex true B B.length v = some r := by simpa [searchIndex] using hr
    simp [bucketIndex, this]

theorem bucketize_elementwise (T T_BOUNDARIES T_IND : CType) (n : Node)
    (src0 src1 dst : Memory) (sel : Bool)
    (hT : ∀ x ∈ src0.data, x.ctype = T) (hB : ∀ b ∈ src1.data, b.ctype = T_BOUNDARIES)
    (hO : ∀ y ∈ dst.data, y.ctype = T_IND)
    (hM : n.num_bin_values = src1.data.length)
    (hbins : 0 < src1.data.length → n.with_bins = true)
    (hN : n.num_values = src0.data.length) (hD : src0.data.length ≤ dst.data.length) :
    bucketize T T_BOUNDARIES T_IND n ⟨some src0, some src1, some dst, sel⟩ =
      some (src0.data.map (fun v =>
          static_cast T_IND ((bucketIndex n.with_right src1.data v : Nat) : Int)) ++
        dst.data.drop src0.data.length) := by
  cases hwb : n.with_bins
  · have hlen : src1.data.length = 0 := by
      by_contra hne
      have := hbins (Nat.pos_of_ne_zero hne)
      rw [hwb] at this
      cases this
    have hnil : src1.data = [] := List.length_eq_zero.mp hlen
    rw [bucketize_memset_path_frame T T_BOUNDARIES T_IND n src0 src1 dst sel hT hB hO hwb
      (by rw [hN]; exact hD), hN]
    congr 2
    symm
    rw [List.eq_replicate_iff]
    refine ⟨by simp, ?_⟩
    intro y hy
    obtain ⟨v, _, rfl⟩ := List.mem_map.mp hy
    simp only [bucketIndex, hnil, List.length_nil, searchIndex_zero, Option.getD_some]
    exact static_cast_zero_eq T_IND
  · exact bucketize_search_path_frame T T_BOUNDARIES T_IND n src0 src1 dst sel hT hB hO hwb hN hD
      (fun v => bucketIndex n.with_right src1.data v)
      (by intro v _; rw [hM]; exact searchIndex_eq_bucketIndex _ _ v)

/-- C11.  Execution is element-wise and pure.  For a node set up for its blocks
(`with_bins` is set whenever there are boundaries, as `prepareParams` leaves it)
`execute` returns, the first `num_values` slots of the destination hold, slot by
slot, `static_cast<T_IND>` of the index of the corresponding input element, a
function of that element, the boundaries and `with_right` only, and the slots
beyond stay as they were; neither the other input elements nor the earlier
contents of the destination enter.  Running `execute` again on the destination
just written gives the same contents. -/
theorem execute_pure_elementwise (id : Type_t → Nat) (hid : ∀ t, id t < 256)
    (hinj : Function.Injective id) (n : Node) (src0 src1 dst : Memory) (sel : Bool)
    (hsup : supportedCombination n.input_precision n.boundaries_precision
      n.output_precision = true)
    (hT : ∀ x ∈ src0.data, value_type n.input_precision = some x.ctype)
    (hB : ∀ b ∈ src1.data, value_type n.boundaries_precision = some b.ctype)
    (hO : ∀ y ∈ dst.data, value_type n.output_precision = some y.ctype)
    (hM : n.num_bin_values = src1.data.length)
    (hbins : 0 < src1.data.length → n.with_bins = true)
    (hN : n.num_values = src0.data.length) (hD : src0.data.length ≤ dst.data.length) :
    ∃ T_IND, value_type n.output_precision = some T_IND ∧
      execute id n ⟨some src0, some src1, some dst, sel⟩ =
        .returned (src0.data.map (fun v =>
            static_cast T_IND ((bucketIndex n.with_right src1.data v : Nat) : Int)) ++
          dst.data.drop src0.data.length) ∧
      ∀ out, execute id n ⟨some src0, some src1, some dst, sel⟩ = .returned out →
        execute id n ⟨some src0, some src1, some { dst with data := out }, sel⟩ =
          .returned out := by
  obtain ⟨T, TB, TI, hvT, hvB, hvI, _, hsw⟩ := execute_switch_supported id hid hinj _ _ _ hsup
  have hT' := ctype_of_value_type src0.data hvT hT
  have hB' := ctype_of_value_type src1.data hvB hB
  have hO' := ctype_of_value_type dst.data hvI hO
  have h1 := bucketize_elementwise T TB TI n src0 src1 dst sel hT' hB' hO' hM hbins hN hD
  have he : execute id n ⟨some src0, some src1, some dst, sel⟩ =
      .returned (src0.data.map (fun v =>
          static_cast TI ((bucketIndex n.with_right src1.data v : Nat) : Int)) ++
        dst.data.drop src0.data.length) := by
    simp only [execute, hsw, h1]
  refine ⟨TI, hvI, he, ?_⟩
  intro out hout
  rw [he] at hout
  have hout' := (Outcome.returned.inj hout).symm
  have hO2 : ∀ y ∈ ({ dst with data := out } : Memory).data, y.ctype = TI := by
    intro y hy
    simp only [hout', List.mem_append, List.mem_map] at hy
    rcases hy with ⟨v, _, rfl⟩ | hy
    · exact static_cast_ctype TI _
    · exact hO' y (List.mem_of_mem_drop hy)
  have hD2 : src0.data.length ≤ ({ dst with data := out } : Memory).data.length := by
    simp only [hout', List.length_append, List.length_map]
    omega
  have h2 := bucketize_elementwise T TB TI n src0 src1 { dst with data := out } sel hT' hB' hO2
    hM hbins hN hD2
  simp only [execute, hsw, h2]
  congr 1
  rw [hout']
  congr 1
  rw [List.drop_append_of_le_length (by simp)]
  simp

theorem execute_pure_elementwise_witness :
    ∃ T_IND, value_type (scenarioNode true 6 3).output_precision = some T_IND ∧
      execute Type_t.position (scenarioNode true 6 3)
          ⟨some (block scenarioInput), some (block scenarioBoundaries),
            some (block (staleOutput 8)), true⟩ =
        .returned ((block scenarioInput).data.map (fun v =>
            static_cast T_IND
              ((bucketIndex (scenarioNode true 6 3).with_right (block scenarioBoundaries).data v :
                Nat) : Int)) ++
          (block (staleOutput 8)).data.drop (block scenarioInput).data.length) :=
  match execute_pure_elementwise Type_t.position position_lt position_injective
      (scenarioNode true 6 3) (block scenarioInput) (block scenarioBoundaries)
      (block (staleOutput 8)) true (by decide) (by decide) (by decide) (by decide) rfl
      (fun _ => rfl) rfl (by decide) with
  | ⟨T_IND, h1, h2, _⟩ => ⟨T_IND, h1, h2⟩

theorem foldl_mul_mod_eq (dims : List Nat) :
    ∀ a, dims.foldl (fun acc d => acc * d % 2 ^ 64) (a % 2 ^ 64) = a * dims.prod % 2 ^ 64 := by
  induction dims with
  | nil => intro a; simp
  | cons d t ih =>
    intro a
    simp only [List.foldl_cons, List.prod_cons]
    rw [Nat.mod_mul_mod, ih (a * d), Nat.mul_assoc]

theorem num_values_eq_prod_mod (dims : List Nat) :
    dims.foldl (fun acc d => acc * d % 2 ^ 64) 1 = dims.prod % 2 ^ 64 := by
  have := foldl_mul_mod_eq dims 1
  simpa using this

/-- C19.  The zero-fill path and the search path agree on empty boundaries:
with `num_bin_values = 0` the kernel gives the same result, zeros in the first
`num_values` slots and the rest of the destination untouched, whether
`with_bins` is `false` (the `memset`) or `true` (a search over the empty range),
for every input and both values of `with_right`. -/
theorem zero_fill_and_search_agree (T T_BOUNDARIES T_IND : CType) (n : Node)
    (src0 src1 dst : Memory) (sel : Bool)
    (hT : ∀ x ∈ src0.data, x.ctype = T) (hB : ∀ b ∈ src1.data, b.ctype = T_BOUNDARIES)
    (hO : ∀ y ∈ dst.data, y.ctype = T_IND)
    (hM : n.num_bin_values = 0) (hN : n.num_values = src0.data.length)
    (hD : src0.data.length ≤ dst.data.length) :
    bucketize T T_BOUNDARIES T_IND { n with with_bins := false }
        ⟨some src0, some src1, some dst, sel⟩ =
        some (List.replicate n.num_values (zeroValue T_IND) ++ dst.data.drop n.num_values) ∧
      bucketize T T_BOUNDARIES T_IND { n with with_bins := true }
        ⟨some src0, some src1, some dst, sel⟩ =
        some (List.replicate n.num_values (zeroValue T_IND) ++ dst.data.drop n.num_values) := by
  constructor
  · exact bucketize_memset_path_frame T T_BOUNDARIES T_IND _ src0 src1 dst sel hT hB hO rfl
      (by show n.num_values ≤ dst.data.length; rw [hN]; exact hD)
  · rw [bucketize_search_path_frame T T_BOUNDARIES T_IND { n with with_bins := true } src0 src1
      dst sel hT hB hO rfl hN hD (fun _ => 0)
      (by intro v _; show searchIndex n.with_right src1.data n.num_bin_values v = some 0
          rw [hM]; exact searchIndex_zero _ _ v)]
    simp only [static_cast_zero_eq, List.map_const', hN]

theorem zero_fill_and_search_agree_witness :
    bucketize .float .float .int32_t { scenarioNode false 2 0 with with_bins := false }
        (portsWithBoundaries []) = some [.i32 0, .i32 0] ∧
      bucketize .float .float .int32_t { scenarioNode false 2 0 with with_bins := true }
        (portsWithBoundaries []) = some [.i32 0, .i32 0] :=
  ⟨(zero_fill_and_search_agree .float .float .int32_t (scenarioNode false 2 0)
      (block (floats [3, -1])) (block []) (block (staleOutput 2)) true
      (by decide) (by decide) (by decide) rfl rfl (by decide)).1.trans (by decide),
    (zero_fill_and_search_agree .float .float .int32_t (scenarioNode false 2 0)
      (block (floats [3, -1])) (block []) (block (staleOutput 2)) true
      (by decide) (by decide) (by decide) rfl rfl (by decide)).2.trans (by decide)⟩

/-- C15.  Arity check at construction: the constructor completes only for an
operation with exactly 2 inputs and exactly 1 output, and then takes `with_right`
from the operation; for every other pair of numbers it ends in an exception (on a
v3 `Bucketize` operation the one about the number of edges), so no `with_right`
is taken; on a v3 `Bucketize` operation with 2 inputs and 1 output it completes. -/
theorem constructor_checks_arity (op : Op) (members : Node) :
    (∀ n, Bucketize op members = .ok n →
        op.originalInputsNumber = 2 ∧ op.originalOutputsNumber = 1 ∧
          n = { members with with_right := op.with_right_bound }) ∧
      (¬ (op.originalInputsNumber = 2 ∧ op.originalOutputsNumber = 1) →
        ∃ e, Bucketize op members = .error e) ∧
      (op.isV3Bucketize = true →
        ¬ (op.originalInputsNumber = 2 ∧ op.originalOutputsNumber = 1) →
        Bucketize op members = .error .incorrect_number_of_edges) ∧
      (op.isV3Bucketize = true → op.originalInputsNumber = 2 → op.originalOutputsNumber = 1 →
        Bucketize op members = .ok { members with with_right := op.with_right_bound }) := by
  cases hv : op.isV3Bucketize
  · simp [Bucketize, isSupportedOperation, hv]
  · by_cases hi : op.originalInputsNumber = 2
    · by_cases ho : op.originalOutputsNumber = 1
      · simp [Bucketize, isSupportedOperation, hv, hi, ho]
      · simp [Bucketize, isSupportedOperation, hv, hi, ho]
    · simp [Bucketize, isSupportedOperation, hv, hi]

theorem constructor_checks_arity_witness :
    Bucketize (scenarioOp 3 1) freshNode = .error .incorrect_number_of_edges ∧
      Bucketize (scenarioOp 2 2) freshNode = .error .incorrect_number_of_edges ∧
      Bucketize (scenarioOp 2 1) freshNode = .ok { freshNode with with_right := true } :=
  ⟨(constructor_checks_arity (scenarioOp 3 1) freshNode).2.2.1 rfl (by decide),
    (constructor_checks_arity (scenarioOp 2 2) freshNode).2.2.1 rfl (by decide),
    (constructor_checks_arity (scenarioOp 2 1) freshNode).2.2.2 rfl rfl rfl⟩

theorem prepareParams_ok_iff (n : Node) (p : Ports) :
    (∃ n', prepareParams n p = .ok n') ↔
      (definedMemory p.dst = true ∧ definedMemory p.src0 = true ∧ definedMemory p.src1 = true ∧
        p.selectedPrimitiveDescriptor = true ∧ getStaticDims p.src0 ≠ [] ∧
        (getStaticDims p.src1).length = 1) := by
  simp only [prepareParams]
  cases h1 : definedMemory p.dst <;> cases h2 : definedMemory p.src0 <;>
    cases h3 : definedMemory p.src1 <;> cases h4 : p.selectedPrimitiveDescriptor <;>
    simp
  cases h5 : getStaticDims p.src0 with
  | nil => simp
  | cons d t =>
    by_cases h6 : (getStaticDims p.src1).length = 1
    · simp [h6]
    · simp [h6]

/-- C16 (amended).  Set-up validation: `prepareParams` succeeds exactly when the
destination memory, the input-tensor memory and the boundaries memory are
present and defined, a primitive descriptor is selected, the input tensor has at
least one dimension and the boundaries tensor has exactly one; in every other
case it raises an exception.  When it succeeds, `num_bin_values` is the boundary
length and `num_values` is the product of the input dimensions in `size_t`
arithmetic (modulo `2^64`, the product itself when that is below `2^64`). -/
theorem prepareParams_validation (n : Node) (p : Ports) :
    ((∃ n', prepareParams n p = .ok n') ↔
        (definedMemory p.dst = true ∧ definedMemory p.src0 = true ∧
          definedMemory p.src1 = true ∧ p.selectedPrimitiveDescriptor = true ∧
          getStaticDims p.src0 ≠ [] ∧ (getStaticDims p.src1).length = 1)) ∧
      (¬ (definedMemory p.dst = true ∧ definedMemory p.src0 = true ∧
          definedMemory p.src1 = true ∧ p.selectedPrimitiveDescriptor = true ∧
          getStaticDims p.src0 ≠ [] ∧ (getStaticDims p.src1).length = 1) →
        ∃ e, prepareParams n p = .error e) ∧
      (∀ n', prepareParams n p = .ok n' →
        n'.num_bin_values = (getStaticDims p.src1).headD 0 ∧
          n'.num_values = (getStaticDims p.src0).prod % 2 ^ 64 ∧
          ((getStaticDims p.src0).prod < 2 ^ 64 →
            n'.num_values = (getStaticDims p.src0).prod)) := by
  refine ⟨prepareParams_ok_iff n p, fun hnot => ?_, fun n' h => ?_⟩
  · cases hr : prepareParams n p with
    | error e => exact ⟨e, rfl⟩
    | ok n' => exact absurd ((prepareParams_ok_iff n p).mp ⟨n', hr⟩) hnot
  · obtain ⟨hb, hnv, _⟩ := prepareParams_ok h
    rw [num_values_eq_prod_mod] at hnv
    exact ⟨hb, hnv, fun hlt => by rw [hnv, Nat.mod_eq_of_lt hlt]⟩

theorem prepareParams_validation_witness :
    (getStaticDims portsWithTwoDimensionalBoundaries.src1).length ≠ 1 ∧
      ∃ e, prepareParams freshNode portsWithTwoDimensionalBoundaries = .error e :=
  ⟨by decide,
    (prepareParams_validation freshNode portsWithTwoDimensionalBoundaries).2.1 (by decide)⟩

/-- C16, the claim as stated fails: with all three memories defined, an input
of shape `[2]` and boundaries of shape `[3]`, none of the listed conditions
holds, yet `prepareParams` raises `has preferable primitive descriptors unset`
when no primitive descriptor is selected. -/
theorem prepareParams_fails_without_selected_descriptor :
    definedMemory (some (block (staleOutput 2))) = true ∧
      definedMemory (some (block (floats [3, -1]))) = true ∧
      definedMemory (some (block scenarioBoundaries)) = true ∧
      getStaticDims (some (block (floats [3, -1]))) = [2] ∧
      getStaticDims (some (block scenarioBoundaries)) = [3] ∧
      prepareParams negotiatedNode
        ⟨some (block (floats [3, -1])), some (block scenarioBoundaries),
          some (block (staleOutput 2)), false⟩ = .error .primitive_descriptors_unset :=
  ⟨rfl, rfl, rfl, rfl, rfl, rfl⟩

/-- C17.  The dispatch table is not permuted: for each of the 18 supported
triples `(a, b, c)` the case labelled `getElementsMask(a, b, c)` calls the kernel
instantiated with the value types of `a` (input), `b` (boundaries) and `c`
(output), and `execute` on a node of these precisions runs exactly that
instantiation; the labels are pairwise distinct because `getElementsMask` is
injective on triples of element types whose identifiers are distinct numbers
below 256. -/
theorem dispatch_table_not_permuted (id : Type_t → Nat) (hid : ∀ t, id t < 256)
    (hinj : Function.Injective id) :
    (∀ a b c, supportedCombination a b c = true →
        ∃ T T_BOUNDARIES T_IND, value_type a = some T ∧ value_type b = some T_BOUNDARIES ∧
          value_type c = some T_IND ∧
          execute_switch id (getElementsMask id a b c .dynamic) = some (T, T_BOUNDARIES, T_IND) ∧
          ∀ (n : Node) (p : Ports), n.input_precision = a → n.boundaries_precision = b →
            n.output_precision = c →
            execute id n p =
              match bucketize T T_BOUNDARIES T_IND n p with
              | some out => .returned out
              | none => .undefined) ∧
      (∀ a b c a' b' c', getElementsMask id a b c .dynamic = getElementsMask id a' b' c' .dynamic →
        a = a' ∧ b = b' ∧ c = c') := by
  refine ⟨fun a b c hs => ?_, fun a b c a' b' c' h => getElementsMask_injective id hid hinj h⟩
  obtain ⟨T, TB, TI, h1, h2, h3, _, hsw⟩ := execute_switch_supported id hid hinj a b c hs
  refine ⟨T, TB, TI, h1, h2, h3, hsw, ?_⟩
  intro n p ha hb hc
  simp only [execute, ha, hb, hc, hsw]

theorem dispatch_table_not_permuted_witness :
    (∀ t, Type_t.position t < 256) ∧ Function.Injective Type_t.position ∧
      ∃ T T_BOUNDARIES T_IND, value_type Type_t.i64 = some T ∧
        value_type Type_t.f32 = some T_BOUNDARIES ∧ value_type Type_t.i32 = some T_IND ∧
        execute_switch Type_t.position
          (getElementsMask Type_t.position .i64 .f32 .i32 .dynamic) =
            some (T, T_BOUNDARIES, T_IND) :=
  ⟨position_lt, position_injective,
    match (dispatch_table_not_permuted Type_t.position position_lt position_injective).1
        .i64 .f32 .i32 (by decide) with
    | ⟨T, TB, TI, h1, h2, h3, h4, _⟩ => ⟨T, TB, TI, h1, h2, h3, h4⟩⟩

theorem wrapSigned_32_of_lt {x : Int} (h0 : 0 ≤ x) (h1 : x < 2147483648) :
    wrapSigned 32 x = x := by
  simp only [wrapSigned]
  norm_num
  omega

theorem wrapSigned_64_of_lt {x : Int} (h0 : 0 ≤ x) (h1 : x < 9223372036854775808) :
    wrapSigned 64 x = x := by
  simp only [wrapSigned]
  norm_num
  omega

/-- C20.  Index narrowing is exact for realistic sizes: with `int32_t` output
and at most `2^31 - 1` boundaries, or `int64_t` output and at most `2^63 - 1`
boundaries, the search yields an index `i` and `static_cast<T_IND>` of it is the
value of type `T_IND` holding exactly `i`, which is not negative. -/
theorem index_narrowing_exact (with_right : Bool) (B : List Scalar) (v : Scalar) (T_IND : CType)
    (h : (T_IND = .int32_t ∧ B.length ≤ 2 ^ 31 - 1) ∨
      (T_IND = .int64_t ∧ B.length ≤ 2 ^ 63 - 1)) :
    ∃ i, searchIndex with_right B B.length v = some i ∧
      (static_cast T_IND (i : Int)).ctype = T_IND ∧
      (static_cast T_IND (i : Int)).int? = some (i : Int) ∧ (0 : Int) ≤ (i : Int) := by
  have hs := searchIndex_eq_bucketIndex with_right B v
  have hle : bucketIndex with_right B v ≤ B.length := by
    cases with_right
    · obtain ⟨r, hr, hr2⟩ := upper_bound_in_range (fun v b => Scalar.less v b) B v
      have : searchIndex false B B.length v = some r := by simpa [searchIndex] using hr
      rw [this] at hs
      rw [← Option.some.inj hs]
      exact hr2
    · obtain ⟨r, hr, hr2⟩ := lower_bound_in_range (fun b v => Scalar.less b v) B v
      have : searchIndex true B B.length v = some r := by simpa [searchIndex] using hr
      rw [this] at hs
      rw [← Option.some.inj hs]
      exact hr2
  refine ⟨bucketIndex with_right B v, hs, static_cast_ctype T_IND _, ?_, Int.ofNat_nonneg _⟩
  rcases h with ⟨rfl, hM⟩ | ⟨rfl, hM⟩
  · simp only [static_cast, Scalar.int?]
    rw [wrapSigned_32_of_lt (Int.ofNat_nonneg _) (by omega)]
  · simp only [static_cast, Scalar.int?]
    rw [wrapSigned_64_of_lt (Int.ofNat_nonneg _) (by omega)]

theorem index_narrowing_exact_witness :
    (CType.int32_t = .int32_t ∧ scenarioBoundaries.length ≤ 2 ^ 31 - 1) ∧
      ∃ i, searchIndex false scenarioBoundaries scenarioBoundaries.length (.f32 (.ofInt 12)) =
          some i ∧
        (static_cast .int32_t (i : Int)).ctype = .int32_t ∧
        (static_cast .int32_t (i : Int)).int? = some (i : Int) ∧ (0 : Int) ≤ (i : Int) :=
  ⟨by decide,
    index_narrowing_exact false scenarioBoundaries (.f32 (.ofInt 12)) .int32_t
      (Or.inl (by decide))⟩

/-! ## Numeric value, top index, duplicates -/

theorem round24_of_le {a : Nat} (h : a ≤ 2 ^ 24) : round24 a = a := by
  rcases Nat.lt_or_ge a (2 ^ 24) with hlt | hge
  · have he : excessBits a a = 0 := by
      cases a with
      | zero => rfl
      | succ k =>
        simp only [excessBits, if_pos hlt]
    simp [round24, he, Nat.mod_one]
  · have : a = 2 ^ 24 := by omega
    subst this
    decide

theorem roundToFloat_of_small {n : Int} (h : n.natAbs ≤ 2 ^ 24) : roundToFloat n = n := by
  simp only [roundToFloat, round24_of_le h]
  split <;> omega

theorem F32.lt_exact_exact (x y : Int) : F32.lt (F32.exact x) (F32.exact y) = decide (x < y) := by
  have hK : (0 : Int) < ((2 ^ 149 : Nat) : Int) := by positivity
  simp only [F32.exact, F32.lt]
  by_cases h : x < y
  · simp [h, Int.mul_lt_mul_of_pos_right h hK]
  · have : ¬ x * ((2 ^ 149 : Nat) : Int) < y * ((2 ^ 149 : Nat) : Int) := by
      intro hc
      exact h (lt_of_mul_lt_mul_right hc (le_of_lt hK))
    simp [h, this]

theorem F32.le_exact_exact (x y : Int) : F32.le (F32.exact x) (F32.exact y) = decide (x ≤ y) := by
  have hK : (0 : Int) < ((2 ^ 149 : Nat) : Int) := by positivity
  simp only [F32.exact, F32.le]
  by_cases h : x ≤ y
  · simp [h, Int.mul_le_mul_of_nonneg_right h (le_of_lt hK)]
  · have : ¬ x * ((2 ^ 149 : Nat) : Int) ≤ y * ((2 ^ 149 : Nat) : Int) := by
      intro hc
      exact h (le_of_mul_le_mul_right hc hK)
    simp [h, this]

theorem F32.ofInt_eq_exact {n : Int} (h : n.natAbs ≤ 2 ^ 24) : F32.ofInt n = F32.exact n := by
  simp only [F32.ofInt, F32.exact, roundToFloat_of_small h]

theorem Scalar.toFloat_eq_numericValue {a : Scalar} (h : a.exactInFloat = true) :
    a.toFloat = a.numericValue := by
  cases a with
  | f32 x => rfl
  | i32 n => exact F32.ofInt_eq_exact (by simpa [Scalar.exactInFloat] using h)
  | i64 n => exact F32.ofInt_eq_exact (by simpa [Scalar.exactInFloat] using h)

theorem Scalar.less_eq_numericLess {a b : Scalar}
    (h : (a.int?.isSome = true ∧ b.int?.isSome = true) ∨
      (a.exactInFloat = true ∧ b.exactInFloat = true)) :
    Scalar.less a b = Scalar.numericLess a b ∧ Scalar.lessEq a b = Scalar.numericLessEq a b := by
  rcases h with ⟨ha, hb⟩ | ⟨ha, hb⟩
  · cases a <;> cases b <;> simp [Scalar.int?] at ha hb <;>
      simp [Scalar.less, Scalar.lessEq, Scalar.numericLess, Scalar.numericLessEq, Scalar.int?,
        Scalar.numericValue, F32.lt_exact_exact, F32.le_exact_exact]
  · have h1 := Scalar.toFloat_eq_numericValue ha
    have h2 := Scalar.toFloat_eq_numericValue hb
    cases a <;> cases b <;>
      simp only [Scalar.less, Scalar.lessEq, Scalar.numericLess, Scalar.numericLessEq,
        Scalar.int?, h1, h2, and_self] <;>
      simp [Scalar.numericValue, F32.lt_exact_exact, F32.le_exact_exact]

theorem searchIndex_open_count_lessEq (B : List Scalar) (v : Scalar) (hs : strictlyAscending B)
    (hv : v.isNaN = false) (hB : ∀ b ∈ B, b.isNaN = false) :
    searchIndex false B B.length v = some (B.countP (fun b => Scalar.lessEq b v)) := by
  rw [searchIndex_open B v hs, countP_not_less_eq_countP_lessEq B v hv hB]

/-- C13 (amended).  Mixed element types compare with the built-in operators:
for sorted, duplicate-free boundaries the index of `v` is the number of
boundaries `b` with `b < v` in right-bound mode and, NaNs apart, the number with
`b <= v` in open mode, where an integer operand is first converted to `float`
(rounded to a 24-bit significand) when the other operand is a `float`.  This is
the comparison by numeric value when both operands are integers, and whenever
every integer operand has magnitude at most `2^24`. -/
theorem mixed_types_compare_after_conversion (B : List Scalar) (v : Scalar)
    (hsorted : strictlyAscending B) :
    searchIndex true B B.length v = some (B.countP (fun b => Scalar.less b v)) ∧
      (v.isNaN = false → (∀ b ∈ B, b.isNaN = false) →
        searchIndex false B B.length v = some (B.countP (fun b => Scalar.lessEq b v))) ∧
      (∀ a b : Scalar,
        (a.int?.isSome = true ∧ b.int?.isSome = true) ∨
          (a.exactInFloat = true ∧ b.exactInFloat = true) →
        Scalar.less a b = Scalar.numericLess a b ∧
          Scalar.lessEq a b = Scalar.numericLessEq a b) :=
  ⟨searchIndex_right B v hsorted, searchIndex_open_count_lessEq B v hsorted,
    fun _ _ h => Scalar.less_eq_numericLess h⟩

theorem mixed_types_compare_after_conversion_witness :
    strictlyAscending boundaryTwoAndHalf ∧
      searchIndex true boundaryTwoAndHalf boundaryTwoAndHalf.length (.i64 3) = some 1 ∧
      bucketize .int64_t .float .int32_t (mixedNode 2 1)
          ⟨some (block [.i64 2, .i64 3]), some (block boundaryTwoAndHalf),
            some (block (staleOutput 2)), true⟩ = some [.i32 0, .i32 1] :=
  ⟨by decide,
    (mixed_types_compare_after_conversion boundaryTwoAndHalf (.i64 3) (by decide)).1.trans
      (by decide),
    by decide⟩

/-- C13, the claim as stated fails: with `int64_t` input `16777217`, the `float`
boundary `16777216.0` and right-bound mode the kernel writes index `0`, because
the input is rounded to `16777216.0` before the comparison, while one boundary
is strictly less than the input by numeric value. -/
theorem mixed_comparison_rounds_integer_input :
    strictlyAscending (floats [16777216]) ∧
      bucketize .int64_t .float .int32_t (mixedNode 1 1)
          ⟨some (block [.i64 16777217]), some (block (floats [16777216])),
            some (block (staleOutput 1)), true⟩ = some [.i32 0] ∧
      (floats [16777216]).countP (fun b => Scalar.numericLess b (.i64 16777217)) = 1 ∧
      roundToFloat 16777217 = 16777216 := by
  decide

/-- C14 (amended).  Meaning of the top index, for sorted, duplicate-free
boundaries: the right-bound-mode index equals the length exactly when every
boundary is `<` the value; the open-mode index equals the length exactly when no
boundary is `>` the value, which, when neither the value nor a boundary is a NaN,
is exactly when the value is `>=` every boundary. -/
theorem top_index_meaning (B : List Scalar) (v : Scalar) (hsorted : strictlyAscending B) :
    (searchIndex true B B.length v = some B.length ↔ ∀ b ∈ B, Scalar.less b v = true) ∧
      (searchIndex false B B.length v = some B.length ↔ ∀ b ∈ B, Scalar.less v b = false) ∧
      (v.isNaN = false → (∀ b ∈ B, b.isNaN = false) →
        (searchIndex false B B.length v = some B.length ↔
          ∀ b ∈ B, Scalar.lessEq b v = true)) := by
  refine ⟨?_, ?_, fun hv hB => ?_⟩
  · rw [searchIndex_right B v hsorted, Option.some.injEq, List.countP_eq_length]
  · rw [searchIndex_open B v hsorted, Option.some.injEq, List.countP_eq_length]
    simp
  · rw [searchIndex_open_count_lessEq B v hsorted hv hB, Option.some.injEq,
      List.countP_eq_length]

theorem top_index_meaning_witness :
    strictlyAscending scenarioBoundaries ∧
      (searchIndex true scenarioBoundaries scenarioBoundaries.length (.f32 (.ofInt 12)) =
        some scenarioBoundaries.length) :=
  ⟨by decide,
    (top_index_meaning scenarioBoundaries (.f32 (.ofInt 12)) (by decide)).1.mpr (by decide)⟩

/-- C14, the claim as stated fails on a NaN input: with boundaries
`[1.0, 5.0, 10.0]` the open-mode index of a NaN is the length `3`, although the
NaN is `>=` none of the boundaries. -/
theorem open_top_index_fails_on_nan :
    strictlyAscending scenarioBoundaries ∧ 0 < scenarioBoundaries.length ∧
      searchIndex false scenarioBoundaries scenarioBoundaries.length (.f32 .nan) =
        some scenarioBoundaries.length ∧
      ∀ b ∈ scenarioBoundaries, Scalar.lessEq b (.f32 .nan) = false := by
  decide

theorem Scalar.lessEq_trans_of_ctype {a b c : Scalar} (hab : a.ctype = b.ctype)
    (hbc : b.ctype = c.ctype) (h1 : Scalar.lessEq a b = true) (h2 : Scalar.lessEq b c = true) :
    Scalar.lessEq a c = true := by
  cases a <;> cases b <;> cases c <;>
    simp only [Scalar.lessEq, Scalar.int?, Scalar.toFloat, Scalar.ctype, decide_eq_true_eq,
      reduceCtorEq] at *
  · revert h1 h2
    rename_i x y z
    cases x <;> cases y <;> cases z <;> simp [F32.le]
    omega
  all_goals omega

theorem pairwise_lessEq_of_nonDecreasing (T : CType) :
    ∀ (B : List Scalar), (∀ b ∈ B, b.ctype = T) → nonDecreasing B →
      List.Pairwise (fun a b => Scalar.lessEq a b = true) B
  | [], _, _ => List.Pairwise.nil
  | [_], _, _ => List.pairwise_singleton _ _
  | a :: b :: t, hB, h => by
    simp only [nonDecreasing, isNonDecreasing, Bool.and_eq_true] at h
    have ih := pairwise_lessEq_of_nonDecreasing T (b :: t)
      (fun x hx => hB x (List.mem_cons_of_mem _ hx)) h.2
    rw [List.pairwise_cons]
    refine ⟨?_, ih⟩
    intro x hx
    rcases List.mem_cons.mp hx with rfl | hxt
    · exact h.1
    · have hbx := (List.pairwise_cons.mp ih).1 x hxt
      have ha := hB a (List.mem_cons_self _ _)
      have hb := hB b (List.mem_cons_of_mem _ (List.mem_cons_self _ _))
      have hx' := hB x (List.mem_cons_of_mem _ hx)
      exact Scalar.lessEq_trans_of_ctype (ha.trans hb.symm) (hb.trans hx'.symm) h.1 hbx

/-- C18 (amended).  Duplicates do not break the counting rule: for boundaries
of one element type sorted in non-decreasing order, duplicates allowed, the
right-bound-mode index is the number of boundaries `b` with `b < v`, and the
open-mode index is the number of boundaries that are not `>` `v`, which, when
neither `v` nor a boundary is a NaN, is the number of boundaries `b` with
`b <= v`. -/
theorem duplicates_keep_counting (T : CType) (B : List Scalar) (v : Scalar)
    (hB : ∀ b ∈ B, b.ctype = T) (hsorted : nonDecreasing B) :
    searchIndex true B B.length v = some (B.countP (fun b => Scalar.less b v)) ∧
      searchIndex false B B.length v = some (B.countP (fun b => !Scalar.less v b)) ∧
      (v.isNaN = false → (∀ b ∈ B, b.isNaN = false) →
        searchIndex false B B.length v = some (B.countP (fun b => Scalar.lessEq b v))) := by
  have hpw := pairwise_lessEq_of_nonDecreasing T B hB hsorted
  have hlow : searchIndex true B B.length v = some (B.countP (fun b => Scalar.less b v)) := by
    simp only [searchIndex, if_true]
    apply lower_bound_eq_countP
    refine hpw.imp_of_mem ?_
    intro a b ha hb hab hbv
    exact Scalar.less_of_lessEq_of_less ((hB a ha).trans (hB b hb).symm) hab hbv
  have hup : searchIndex false B B.length v = some (B.countP (fun b => !Scalar.less v b)) := by
    simp only [searchIndex, Bool.false_eq_true, if_false]
    apply upper_bound_eq_countP
    refine hpw.imp_of_mem ?_
    intro a b ha hb hab hva
    exact Scalar.less_of_less_of_lessEq ((hB a ha).trans (hB b hb).symm) hva hab
  refine ⟨hlow, hup, fun hv hnan => ?_⟩
  rw [hup, countP_not_less_eq_countP_lessEq B v hv hnan]

theorem duplicates_keep_counting_witness :
    nonDecreasing duplicateBoundaries ∧
      searchIndex true duplicateBoundaries duplicateBoundaries.length (.f32 (.ofInt 1)) = some 0 ∧
      searchIndex false duplicateBoundaries duplicateBoundaries.length (.f32 (.ofInt 1)) =
        some 2 :=
  ⟨by decide,
    (duplicates_keep_counting .float duplicateBoundaries (.f32 (.ofInt 1)) (by decide)
      (by decide)).1.trans (by decide),
    (duplicates_keep_counting .float duplicateBoundaries (.f32 (.ofInt 1)) (by decide)
      (by decide)).2.1.trans (by decide)⟩

/-- C18, the claim as stated fails on a NaN input: with the non-decreasing
boundaries `[1.0, 1.0, 5.0]` the open-mode index of a NaN of the same element
type is `3`, while no boundary is `<=` the NaN, so the number of boundaries
`<= v` is `0`. -/
theorem duplicates_open_count_fails_on_nan :
    nonDecreasing duplicateBoundaries ∧
      searchIndex false duplicateBoundaries duplicateBoundaries.length (.f32 .nan) = some 3 ∧
      duplicateBoundaries.countP (fun b => Scalar.lessEq b (.f32 .nan)) = 0 := by
  decide

end Bucketize
